import Mathlib

/-!
# nix-headbump: a verification development

A shallow embedding of `nix-headbump.go` (package `main`):

* Go strings and byte slices are lists of bytes (`Bytes`); the regular
  expression engine decodes them as UTF-8, one rune at a time, the way
  package `regexp` does (`utf8.DecodeRune`, an invalid byte being one rune).
* The package-level pattern `re` is a regular-expression syntax tree run by a
  backtracking matcher with the leftmost-first semantics of package `regexp`.
* `os`, `net/http` and `encoding/json` are an explicit world: a file system,
  the outcome of the single HTTP exchange, and a trace of every effect.
-/

namespace NixHeadbump

/-! ## Bytes and runes -/

/-- A Go `string` or `[]byte`: a sequence of bytes (each below 256). -/
abbrev Bytes := List Nat

/-- The bytes of a string literal of the source (UTF-8, as Go stores it). -/
def utf8 (s : String) : Bytes :=
  (s.data.flatMap String.utf8EncodeChar).map UInt8.toNat

/-- The value `utf8.RuneError`. -/
def runeError : Nat := 0xFFFD

/-- Table `first` of package `utf8` for a leading byte of at least 0x80:
the size of the sequence and the accepted range of its second byte, or `none`
for a byte that cannot start a sequence. -/
def firstInfo (p0 : Nat) : Option (Nat × Nat × Nat) :=
  if p0 < 0xC2 then none
  else if p0 < 0xE0 then some (2, 0x80, 0xBF)
  else if p0 = 0xE0 then some (3, 0xA0, 0xBF)
  else if p0 < 0xED then some (3, 0x80, 0xBF)
  else if p0 = 0xED then some (3, 0x80, 0x9F)
  else if p0 < 0xF0 then some (3, 0x80, 0xBF)
  else if p0 = 0xF0 then some (4, 0x90, 0xBF)
  else if p0 < 0xF4 then some (4, 0x80, 0xBF)
  else if p0 = 0xF4 then some (4, 0x80, 0x8F)
  else none

/-- Whether a byte is a UTF-8 continuation byte (`locb ≤ b ≤ hicb`). -/
def isCont (b : Nat) : Bool := decide (0x80 ≤ b) && decide (b ≤ 0xBF)

/-- The function `utf8.DecodeRune`: the first rune of the input and its width
in bytes; an invalid or truncated sequence is `runeError` of width 1, the
empty input `runeError` of width 0. -/
def decodeRune : Bytes → Nat × Nat
  | [] => (runeError, 0)
  | p0 :: rest =>
    if p0 < 0x80 then (p0, 1)
    else
      match firstInfo p0 with
      | none => (runeError, 1)
      | some (sz, lo, hi) =>
        match rest with
        | [] => (runeError, 1)
        | b1 :: rest1 =>
          if b1 < lo ∨ hi < b1 then (runeError, 1)
          else if sz ≤ 2 then ((p0 % 32) * 64 + b1 % 64, 2)
          else
            match rest1 with
            | [] => (runeError, 1)
            | b2 :: rest2 =>
              if !isCont b2 then (runeError, 1)
              else if sz ≤ 3 then ((p0 % 16) * 4096 + (b1 % 64) * 64 + b2 % 64, 3)
              else
                match rest2 with
                | [] => (runeError, 1)
                | b3 :: _ =>
                  if !isCont b3 then (runeError, 1)
                  else ((p0 % 8) * 262144 + (b1 % 64) * 4096 + (b2 % 64) * 64 + b3 % 64, 4)

/-! ## The pattern `re` and its matcher -/

/-- The single-rune items the pattern uses. -/
inductive CharClass where
  /-- The class `\s`: tab, newline, form feed, carriage return, space. -/
  | space
  /-- The dot under the flag `(?s)`: any rune, newline included. -/
  | any
  /-- A negated one-character class such as `[^"]`. -/
  | notByte (b : Nat)
  deriving DecidableEq, Repr

/-- Whether a byte is in the class `\s` of RE2 syntax. -/
def isSpaceByte (r : Nat) : Bool :=
  r == 9 || r == 10 || r == 12 || r == 13 || r == 32

/-- Whether a class accepts a rune. -/
def CharClass.accepts : CharClass → Nat → Bool
  | .space, r => isSpaceByte r
  | .any, _ => true
  | .notByte b, r => r != b

/-- Syntax of the regular expressions the program uses. -/
inductive Regex where
  /-- A run of literal ASCII characters. -/
  | lit (s : Bytes)
  /-- One rune of a class. -/
  | char (c : CharClass)
  /-- One or more runes of a class, greedy (`+`) or lazy (`+?`). -/
  | plus (c : CharClass) (greedy : Bool)
  /-- Concatenation. -/
  | cat (a b : Regex)
  /-- A capturing group with its index. -/
  | group (i : Nat) (r : Regex)
  deriving Repr

/-- The capture array of a match: entry `i` is the span of group `i`
(group 0 the whole match), `none` where Go holds `-1`. -/
abbrev Caps := List (Option (Nat × Nat))

/-- What remains to be matched: given the rest of the input, the position
reached and the captures so far, the end and captures of a match, if any. -/
abbrev Cont := Bytes → Nat → Caps → Option (Nat × Caps)

/-- The first of two alternatives that succeeds. -/
def firstOf {α : Type} : Option α → Option α → Option α
  | some a, _ => some a
  | none, b => b

/-- Repetition `c+` or `c+?` by backtracking: after each accepted rune a
greedy loop first tries to go on and then to stop, a lazy loop the reverse.
The fuel bounds the number of runes and is never exhausted when it exceeds
the length of the input. -/
def plusLoop (c : CharClass) (greedy : Bool) (k : Cont) :
    Nat → Bytes → Nat → Caps → Option (Nat × Caps)
  | 0, _, _, _ => none
  | fuel + 1, inp, pos, caps =>
    match inp with
    | [] => none
    | _ :: _ =>
      if c.accepts (decodeRune inp).1 then
        let w := (decodeRune inp).2
        if greedy then
          firstOf (plusLoop c greedy k fuel (inp.drop w) (pos + w) caps)
            (k (inp.drop w) (pos + w) caps)
        else
          firstOf (k (inp.drop w) (pos + w) caps)
            (plusLoop c greedy k fuel (inp.drop w) (pos + w) caps)
      else none

/-- The backtracking matcher: `r.exec k inp pos caps` matches `r` at the head
of `inp` (which starts at offset `pos`) and hands over to `k`; alternatives
are tried in the priority order of package `regexp`. -/
def Regex.exec : Regex → Cont → Cont
  | .lit s, k, inp, pos, caps =>
    if s.isPrefixOf inp then k (inp.drop s.length) (pos + s.length) caps else none
  | .char c, k, inp, pos, caps =>
    match inp with
    | [] => none
    | _ :: _ =>
      if c.accepts (decodeRune inp).1 then
        k (inp.drop (decodeRune inp).2) (pos + (decodeRune inp).2) caps
      else none
  | .plus c greedy, k, inp, pos, caps => plusLoop c greedy k (inp.length + 1) inp pos caps
  | .cat a b, k, inp, pos, caps => a.exec (b.exec k) inp pos caps
  | .group i r, k, inp, pos, caps =>
    r.exec (fun inp1 pos1 caps1 => k inp1 pos1 (caps1.set i (some (pos, pos1)))) inp pos caps

/-- The keyword `import`. -/
def kwImport : Bytes := utf8 "import"

/-- The literal `(fetchTarball`. -/
def kwFetch : Bytes := utf8 "(fetchTarball"

/-- The literal that opens the URL, up to the dot of the host name. -/
def urlHead : Bytes := utf8 "\"https://github"

/-- The literal from the host's `com` to the archive directory. -/
def urlTail : Bytes := utf8 "com/NixOS/nixpkgs/archive/"

/-- The literal that closes the import: `.tar.gz")`. -/
def tarSuffix : Bytes := utf8 ".tar.gz\")"

/-- The package-level pattern
`(?s)(import\s+\(fetchTarball\s+"https://github.com/NixOS/nixpkgs/archive/)([^"]+?)(\.tar\.gz"\))`.
The dot of `github.com` is not escaped in the source and matches any rune. -/
def re : Regex :=
  .cat
    (.group 1
      (.cat (.lit kwImport)
      (.cat (.plus .space true)
      (.cat (.lit kwFetch)
      (.cat (.plus .space true)
      (.cat (.lit urlHead)
      (.cat (.char .any)
            (.lit urlTail))))))))
    (.cat (.group 2 (.plus (.notByte 34) false))
          (.group 3 (.lit tarSuffix)))

/-- The number of capture groups of `re`, the whole match included
(`re.numSubexp + 1`). -/
def numGroups : Nat := 4

/-- One match attempt anchored at offset `start`, where `inp` is the input
from that offset on: the capture array of the match found first. -/
def matchAt (inp : Bytes) (start : Nat) : Option Caps :=
  (re.exec (fun _ pos caps => some (pos, caps)) inp start (List.replicate numGroups none)).map
    (fun r => r.2.set 0 (some (start, r.1)))

/-- The leftmost match in `inp`, the input from offset `start` on. The search
tries every offset in turn; `re` starts with an ASCII letter, which is never
inside a multi-byte rune, so these are the offsets package `regexp` tries. -/
def findFrom : Bytes → Nat → Option Caps
  | [], start => matchAt [] start
  | b :: rest, start => firstOf (matchAt (b :: rest) start) (findFrom rest (start + 1))

/-- The method `doExecute` as the program uses it: the capture array of the
leftmost match of `re` in `src` at or after `searchPos`, offsets counted from
the start of `src`. -/
def doExecute (src : Bytes) (searchPos : Nat) : Option Caps :=
  findFrom (src.drop searchPos) searchPos

/-- The bytes `s[lo:hi]`. -/
def slice (s : Bytes) (lo hi : Nat) : Bytes := (s.take hi).drop lo

/-- The text of group `i` of a match in `src`; empty for an unset group. -/
def groupText (src : Bytes) (caps : Caps) (i : Nat) : Bytes :=
  match caps.getD i none with
  | some (lo, hi) => slice src lo hi
  | none => []

/-- The method `FindStringSubmatch` of `re`: `none` for Go's `nil` (no match),
else the text of the whole match and of each group. -/
def findStringSubmatch (s : Bytes) : Option (List Bytes) :=
  (doExecute s 0).map (fun caps => (List.range numGroups).map (groupText s caps))

/-! ## Template expansion and `ReplaceAll` -/

/-- The result of `strings.Cut(t, "$")`: the text before and after the first
dollar sign, `none` when there is none. -/
def cutDollar : Bytes → Option (Bytes × Bytes)
  | [] => none
  | b :: rest =>
    if b = 36 then some ([], rest)
    else (cutDollar rest).map (fun r => (b :: r.1, r.2))

/-- Whether a rune may be part of a group name in a template: a letter, a
digit or the underscore. For a rune outside ASCII the answer is that of the
Unicode tables of package `unicode`, taken as the parameter `uni`
(`unicode.IsLetter(r) || unicode.IsDigit(r)`). -/
def isNameRune (uni : Nat → Bool) (r : Nat) : Bool :=
  if r < 0x80 then
    (decide (97 ≤ r) && decide (r ≤ 122)) || (decide (65 ≤ r) && decide (r ≤ 90))
      || (decide (48 ≤ r) && decide (r ≤ 57)) || r == 95
  else uni r

/-- The index reached by the scanning loop of `extract`: the length in bytes
of the longest leading run of name runes. The fuel bounds the number of runes. -/
def nameLen (uni : Nat → Bool) : Nat → Bytes → Nat
  | 0, _ => 0
  | fuel + 1, str =>
    match str with
    | [] => 0
    | _ :: _ =>
      if isNameRune uni (decodeRune str).1 then
        (decodeRune str).2 + nameLen uni fuel (str.drop (decodeRune str).2)
      else 0

/-- The number loop of `extract`: the value of a name made of decimal digits,
`none` (Go's `-1`) for any other name, for a number of 10^8 or more before its
last digit, and for a leading zero. -/
def parseNum (name : Bytes) : Option Nat :=
  let num := name.foldl
    (fun (acc : Option Nat) (c : Nat) =>
      match acc with
      | none => none
      | some n => if c < 48 ∨ 57 < c ∨ n ≥ 100000000 then none else some (n * 10 + c - 48))
    (some 0)
  if name.head? = some 48 ∧ name.length > 1 then none else num

/-- The function `extract` of package `regexp`: the name at the head of a
template after a dollar sign, bare or in braces, its number if it is one, and
the rest of the template; `none` when the reference is malformed. -/
def extract (uni : Nat → Bool) (str : Bytes) : Option (Bytes × Option Nat × Bytes) :=
  match str with
  | [] => none
  | c :: tl =>
    let brace : Bool := c == 123
    let str1 : Bytes := if brace then tl else str
    let i := nameLen uni str1.length str1
    if i = 0 then none
    else
      let name := str1.take i
      if brace then
        if (str1.drop i).head? = some 125 then some (name, parseNum name, str1.drop (i + 1))
        else none
      else some (name, parseNum name, str1.drop i)

/-- The loop of the method `expand`: copies the template to `dst`, replacing
`$$` by a dollar sign and each reference by the text of its group. A number
that is not a group of `re`, and every name (the groups of `re` are unnamed),
expands to nothing; a malformed reference leaves its dollar sign. -/
def expandLoop (uni : Nat → Bool) (src : Bytes) (caps : Caps) : Nat → Bytes → Bytes → Bytes
  | 0, dst, template => dst ++ template
  | fuel + 1, dst, template =>
    match cutDollar template with
    | none => dst ++ template
    | some (before, after) =>
      match after with
      | 36 :: rest => expandLoop uni src caps fuel (dst ++ before ++ [36]) rest
      | _ =>
        match extract uni after with
        | none => expandLoop uni src caps fuel (dst ++ before ++ [36]) after
        | some (_, num, rest) =>
          match num with
          | some n =>
            if n < numGroups then
              expandLoop uni src caps fuel (dst ++ before ++ groupText src caps n) rest
            else expandLoop uni src caps fuel (dst ++ before) rest
          | none => expandLoop uni src caps fuel (dst ++ before) rest

/-- The method `expand` of `re`: `dst` followed by the expansion of the
template for one match. Every turn of its loop removes a dollar sign from the
template, so the length of the template is fuel enough. -/
def expand (uni : Nat → Bool) (dst template src : Bytes) (caps : Caps) : Bytes :=
  expandLoop uni src caps (template.length + 1) dst template

/-- The end of the whole match, `a[1]` in Go. -/
def matchEnd (caps : Caps) : Nat :=
  match caps.getD 0 none with
  | some (_, hi) => hi
  | none => 0

/-- The start of the whole match, `a[0]` in Go. -/
def matchStart (caps : Caps) : Nat :=
  match caps.getD 0 none with
  | some (lo, _) => lo
  | none => 0

/-- The loop of the method `replaceAll`: finds the successive matches from
`searchPos` on, copies the text between them and lets `repl` append the
replacement of each. The fuel bounds the number of matches. -/
def replaceAllLoop (src : Bytes) (repl : Bytes → Caps → Bytes) :
    Nat → Nat → Nat → Bytes → Bytes
  | 0, lastMatchEnd, _, buf => buf ++ src.drop lastMatchEnd
  | fuel + 1, lastMatchEnd, searchPos, buf =>
    if searchPos ≤ src.length then
      match doExecute src searchPos with
      | none => buf ++ src.drop lastMatchEnd
      | some a =>
        let buf1 := buf ++ slice src lastMatchEnd (matchStart a)
        let buf2 := if matchEnd a > lastMatchEnd ∨ matchStart a = 0 then repl buf1 a else buf1
        let width := (decodeRune (src.drop searchPos)).2
        let searchPos1 :=
          if searchPos + width > matchEnd a then searchPos + width
          else if searchPos + 1 > matchEnd a then searchPos + 1
          else matchEnd a
        replaceAllLoop src repl fuel (matchEnd a) searchPos1 buf2
    else buf ++ src.drop lastMatchEnd

/-- The method `ReplaceAll` of `re`: a copy of `src` in which every match is
replaced by the expansion of the template `repl`. The search position grows
at every match, so the length of `src` is fuel enough. -/
def replaceAll (uni : Nat → Bool) (src repl : Bytes) : Bytes :=
  replaceAllLoop src (fun dst a => expand uni dst repl src a) (src.length + 2) 0 0 []

/-- The template `"${1}" + last + "${3}"` that `bump` builds. -/
def bumpTemplate (last : Bytes) : Bytes := utf8 "${1}" ++ last ++ utf8 "${3}"

/-- The content `bump` computes for a file: `re.ReplaceAll(origin,
[]byte("${1}"+last+"${3}"))`. -/
def patch (uni : Nat → Bool) (origin last : Bytes) : Bytes :=
  replaceAll uni origin (bumpTemplate last)

/-! ## The world: file system, network, trace -/

/-- An `error` value of the program. -/
inductive GoError where
  /-- An error for which `os.IsNotExist` holds, with the failed operation. -/
  | notExist (op path : String)
  /-- Any other error reported by the operating system or the network, with
  its message. -/
  | other (msg : String)
  /-- The value `fmt.Errorf("Can not open %s: %w", path, err)`. -/
  | canNotOpen (path : String) (cause : GoError)
  /-- The value `fmt.Errorf("%v are not found", paths)`. -/
  | notFound (paths : List String)
  deriving DecidableEq, Repr

/-- The function `os.IsNotExist`. -/
def isNotExist : GoError → Bool
  | .notExist _ _ => true
  | _ => false

/-- What a path of the working directory holds. -/
inductive Node where
  /-- No such file. -/
  | absent
  /-- The path cannot be examined: every operation on it fails with this
  message (permission denied on the directory, an I/O error). -/
  | blocked (msg : String)
  /-- A file with its content and whether it may be read and written. -/
  | file (content : Bytes) (readable writable : Bool)
  deriving DecidableEq, Repr

/-- The files of the working directory. -/
abbrev FileSystem := String → Node

/-- The outcome of the single HTTP exchange of `getLastVersion` and of
decoding its body; `encoding/json` is a library, so what `json.Unmarshal`
makes of the body is part of the outcome. -/
inductive Fetch where
  /-- The method `client.Do` returned an error. -/
  | transportError (e : GoError)
  /-- The function `io.ReadAll` returned an error. -/
  | readError (e : GoError)
  /-- The body was read and `json.Unmarshal` returned an error (a body that
  is not JSON, or JSON of another shape than the struct). -/
  | decodeError (body : Bytes) (e : GoError)
  /-- The body was read and `json.Unmarshal` returned `nil`, leaving `sha` in
  `jsonRes.Commit.Sha` (the empty string when the body has no such field). -/
  | decoded (body : Bytes) (sha : Bytes)
  deriving DecidableEq, Repr

/-- An effect of the program on its environment, in the order performed. -/
inductive Event where
  /-- A call of `os.Stat`. -/
  | stat (path : String)
  /-- A call of `os.ReadFile`. -/
  | readFile (path : String)
  /-- A call of `os.WriteFile` with the data passed. -/
  | writeFile (path : String) (data : Bytes)
  /-- The request sent by `client.Do`. -/
  | httpGet (url : String)
  /-- Text written to standard output. -/
  | stdout (text : Bytes)
  /-- A message of `log.Fatalf` or `log.Fatalln` on standard error (without
  the time stamp). -/
  | logFatal (text : Bytes)
  /-- Usage text or an error message written by package `flag`. -/
  | flagOutput (flagSet : String)
  deriving DecidableEq, Repr

/-- The state of the environment. -/
structure World where
  /-- The files of the working directory. -/
  fs : FileSystem
  /-- What the HTTP exchange will give. -/
  fetch : Fetch
  /-- The effects so far, oldest first. -/
  trace : List Event

/-- The world after one more effect. -/
def World.emit (w : World) (e : Event) : World :=
  { w with trace := w.trace ++ [e] }

/-- The function `os.Stat`, as far as the program looks at its result. -/
def osStat (fs : FileSystem) (path : String) : Option GoError :=
  match fs path with
  | .absent => some (.notExist "stat" path)
  | .blocked msg => some (.other msg)
  | .file _ _ _ => none

/-- The function `os.ReadFile`. -/
def osReadFile (fs : FileSystem) (path : String) : Except GoError Bytes :=
  match fs path with
  | .absent => .error (.notExist "open" path)
  | .blocked msg => .error (.other msg)
  | .file content readable _ =>
    if readable then .ok content else .error (.other "permission denied")

/-- The function `os.WriteFile`: the new file system, or an error that leaves
it as it was. An absent file is created, an existing one keeps its
permissions. -/
def osWriteFile (fs : FileSystem) (path : String) (data : Bytes) : Except GoError FileSystem :=
  match fs path with
  | .absent => .ok (fun p => if p = path then .file data true true else fs p)
  | .blocked msg => .error (.other msg)
  | .file _ readable writable =>
    if writable then .ok (fun p => if p = path then .file data readable writable else fs p)
    else .error (.other "permission denied")

/-- The text of `err.Error()`. -/
def GoError.text : GoError → String
  | .notExist op path => op ++ " " ++ path ++ ": no such file or directory"
  | .other msg => msg
  | .canNotOpen path cause => "Can not open " ++ path ++ ": " ++ cause.text
  | .notFound paths => "[" ++ " ".intercalate paths ++ "] are not found"

/-- The result of a function that may panic at run time instead of
returning. -/
inductive Result (α : Type) where
  /-- The function returned. -/
  | ret (a : α)
  /-- A run-time panic with its message. -/
  | panic (msg : String)
  deriving DecidableEq, Repr

/-! ## The functions of the program -/

/-- The function `bump`. -/
def bump (uni : Nat → Bool) (path : String) (last : Bytes) (w : World) : Option GoError × World :=
  let w1 := w.emit (.readFile path)
  match osReadFile w.fs path with
  | .error err => (some err, w1)
  | .ok origin =>
    let replaced := replaceAll uni origin (bumpTemplate last)
    if origin = replaced then (none, w1)
    else
      let w2 := w1.emit (.writeFile path replaced)
      match osWriteFile w.fs path replaced with
      | .error err => (some err, w2)
      | .ok fs1 => (none, { w2 with fs := fs1 })

/-- The loop of `getTargetPath` over the candidate paths still to check. -/
def getTargetPathLoop (all : List String) : List String → World → (String × Option GoError) × World
  | [], w => (("", some (.notFound all)), w)
  | path :: rest, w =>
    let w1 := w.emit (.stat path)
    match osStat w.fs path with
    | none => ((path, none), w1)
    | some err =>
      if !isNotExist err then (("", some (.canNotOpen path err)), w1)
      else getTargetPathLoop all rest w1

/-- The array `paths` of `getTargetPath`. -/
def paths : List String := ["default.nix", "shell.nix"]

/-- The function `getTargetPath`. -/
def getTargetPath (w : World) : (String × Option GoError) × World :=
  getTargetPathLoop paths paths w

/-- The last two lines of `getCurrentVersion`, for the content read:
`matches := re.FindStringSubmatch(string(origin))` and `matches[2]`. The
index is checked at run time: with no match `matches` is `nil` and the
function panics. -/
def currentVersion (origin : Bytes) : Result Bytes :=
  match findStringSubmatch origin with
  | none => .panic "index out of range [2] with length 0"
  | some ms =>
    match ms.get? 2 with
    | some v => .ret v
    | none => .panic "index out of range [2]"

/-- The function `getCurrentVersion`. Indexing the `nil` slice that
`FindStringSubmatch` returns for no match is a run-time panic. -/
def getCurrentVersion (path : String) (w : World) : Result (Bytes × Option GoError) × World :=
  let w1 := w.emit (.readFile path)
  match osReadFile w.fs path with
  | .error err => (.ret ([], some err), w1)
  | .ok origin =>
    match currentVersion origin with
    | .ret v => (.ret (v, none), w1)
    | .panic msg => (.panic msg, w1)

/-- The URL `getLastVersion` requests. -/
def branchUrl : String := "https://api.github.com/repos/NixOS/nixpkgs/branches/master"

/-- The function `getLastVersion`. The variable `err` is the one assigned by
`client.Do` and then by `io.ReadAll`; the branch taken when `json.Unmarshal`
fails returns that variable, which holds `nil` there. -/
def getLastVersion (w : World) : (Bytes × Option GoError) × World :=
  let w1 := w.emit (.httpGet branchUrl)
  match w.fetch with
  | .transportError e => (([], some e), w1)
  | .readError e => (([], some e), w1)
  | .decodeError _ _ =>
    let err : Option GoError := none
    (([], err), w1)
  | .decoded _ sha => ((sha, none), w1)

/-! ## Command-line flags and `main` -/

/-- The function `strconv.ParseBool`. -/
def parseBool (s : String) : Option Bool :=
  if s = "1" ∨ s = "t" ∨ s = "T" ∨ s = "TRUE" ∨ s = "true" ∨ s = "True" then some true
  else if s = "0" ∨ s = "f" ∨ s = "F" ∨ s = "FALSE" ∨ s = "false" ∨ s = "False" then some false
  else none

/-- The name and the value of a flag argument after its dashes: the text is
cut at the first equals sign that is not its first character. -/
def splitFlag : List Char → List Char × Option (List Char)
  | [] => ([], none)
  | c :: rest =>
    match rest.span (fun x => x != '=') with
    | (name, []) => (c :: name, none)
    | (name, _ :: value) => (c :: name, some value)

/-- How parsing a flag set ends. -/
inductive Parsed where
  /-- Parsing stopped at the first argument that is not a flag; the flags
  set to true or false so far, latest first. -/
  | done (values : List (String × Bool))
  /-- A flag `-h` or `-help` that is not defined: usage is printed and, the
  flag set being `ExitOnError`, the process exits with code 0. -/
  | help
  /-- A malformed or undefined flag or a bad value: the process exits with
  code 2. -/
  | failed
  deriving DecidableEq, Repr

/-- The method `Parse` of a flag set whose flags are all boolean (the loop
over `parseOne`), `formal` being the names defined. -/
def parseFlags (formal : List String) : List String → List (String × Bool) → Parsed
  | [], values => .done values
  | s :: rest, values =>
    match s.data with
    | '-' :: c :: tl =>
      if c = '-' ∧ tl = [] then .done values
      else
        let body := if c = '-' then tl else c :: tl
        match body with
        | [] => .failed
        | d :: _ =>
          if d = '-' ∨ d = '=' then .failed
          else
            let nv := splitFlag body
            let name := String.mk nv.1
            if formal.contains name then
              match nv.2 with
              | none => parseFlags formal rest ((name, true) :: values)
              | some v =>
                match parseBool (String.mk v) with
                | some b => parseFlags formal rest ((name, b) :: values)
                | none => .failed
            else if name = "help" ∨ name = "h" then .help
            else .failed
    | _ => .done values

/-- The value of a boolean flag after parsing; the default is false. -/
def flagValue (values : List (String × Bool)) (name : String) : Bool :=
  match values.find? (fun p => p.1 = name) with
  | some p => p.2
  | none => false

/-- The build-time variables `version`, `commit` and `date`. -/
structure Build where
  /-- The variable `version`. -/
  version : Bytes
  /-- The variable `commit`. -/
  commit : Bytes
  /-- The variable `date`. -/
  date : Bytes

/-- The values the variables have unless the linker sets them. -/
def defaultBuild : Build :=
  { version := utf8 "dev", commit := utf8 "none", date := utf8 "unknown" }

/-- The variables as a release sets them, with a full commit identifier. -/
def releaseBuild : Build :=
  { version := utf8 "1.2.3", commit := utf8 "0123456789abcdef", date := utf8 "2024-01-01" }

/-- How the process ends. -/
inductive Exit where
  /-- The process exits with this code (0 when `main` returns). -/
  | code (n : Nat)
  /-- The process dies of a run-time panic. -/
  | panic (msg : String)
  deriving DecidableEq, Repr

/-- The text of `usageError`. -/
def usageText : Bytes := utf8 "expected 'bump' or 'detect' subcommands"

/-- The function `fmt.Println` of one string. -/
def println (w : World) (text : Bytes) : World :=
  w.emit (.stdout (text ++ [10]))

/-- The end of a run through `log.Fatalf`: the message and exit code 1. -/
def fatal (w : World) (text : Bytes) : Exit × World :=
  (.code 1, w.emit (.logFatal text))

/-- The `detect` branch of `main`. The flag set is `ExitOnError`: on a bad
argument `Parse` ends the process itself, so the test `err != nil` after it
never holds. -/
def runDetect (path : String) (rest : List String) (w : World) : Exit × World :=
  match parseFlags ["current", "last", "target"] rest [] with
  | .help => (.code 0, w.emit (.flagOutput "detect"))
  | .failed => (.code 2, w.emit (.flagOutput "detect"))
  | .done values =>
    if flagValue values "target" then (.code 0, println w (utf8 path))
    else if flagValue values "current" then
      match getCurrentVersion path w with
      | (.panic msg, w1) => (.panic msg, w1)
      | (.ret (_, some err), w1) =>
        fatal w1 (utf8 ("Getting the current version has been failed: " ++ err.text))
      | (.ret (current, none), w1) => (.code 0, println w1 current)
    else
      match getLastVersion w with
      | ((_, some err), w1) =>
        fatal w1 (utf8 ("Getting the last version has been failed: " ++ err.text))
      | ((last, none), w1) =>
        if flagValue values "last" then (.code 0, println w1 last)
        else (.code 0, w1.emit (.flagOutput "detect"))

/-- The `bump` branch of `main`; its flag set defines no flag and is
`ExitOnError` too. -/
def runBump (uni : Nat → Bool) (path : String) (rest : List String) (w : World) : Exit × World :=
  match parseFlags [] rest [] with
  | .help => (.code 0, w.emit (.flagOutput "bump"))
  | .failed => (.code 2, w.emit (.flagOutput "bump"))
  | .done _ =>
    match getLastVersion w with
    | ((_, some err), w1) =>
      fatal w1 (utf8 ("Getting the last version has been failed: " ++ err.text))
    | ((last, none), w1) =>
      match bump uni path last w1 with
      | (some err, w2) =>
        fatal w2 (utf8 ("Bumping the version has been failed: " ++ err.text))
      | (none, w2) => (.code 0, w2)

/-- The function `main`, run with the arguments `args` (`os.Args[1:]`).
Slicing `commit[:7]` is checked at run time and panics for a shorter string. -/
def main (uni : Nat → Bool) (build : Build) (args : List String) (w : World) : Exit × World :=
  match parseFlags ["version"] args [] with
  | .help => (.code 0, w.emit (.flagOutput "main"))
  | .failed => (.code 2, w.emit (.flagOutput "main"))
  | .done values =>
    if flagValue values "version" then
      if build.commit.length < 7 then
        (.panic "slice bounds out of range [:7]", w)
      else
        let revision := build.commit.take 7
        (.code 0, println w (utf8 "nix-headbump" ++ utf8 " " ++ build.version ++ utf8 " "
          ++ utf8 "(" ++ revision ++ utf8 ") # " ++ build.date))
    else
      match args with
      | [] => (.code 1, println w usageText)
      | sub :: rest =>
        match getTargetPath w with
        | ((_, some err), w1) => fatal w1 (utf8 ("Failed to get target files: " ++ err.text))
        | ((path, none), w1) =>
          if path = "" then fatal w1 (utf8 "Both default.nix and shell.nix are not found")
          else if sub = "detect" then runDetect path rest w1
          else if sub = "bump" then runBump uni path rest w1
          else (.code 1, println w1 usageText)

/-! ## Vocabulary of the statements -/

/-- A non-empty run of white space, the characters of the class `\s`. -/
def IsSpaces (ws : Bytes) : Prop := ws ≠ [] ∧ ∀ b ∈ ws, isSpaceByte b = true

/-- The bytes `d` are exactly one rune when the text `com/NixOS/...` follows:
one code point in UTF-8, or one byte that is not valid UTF-8. -/
def IsOneRune (d : Bytes) : Prop := d ≠ [] ∧ (decodeRune (d ++ urlTail)).2 = d.length

/-- The texts group 1 of `re` can match: `import`, white space,
`(fetchTarball`, white space, the URL up to `archive/` with one rune in place
of the dot of `github.com`. -/
def IsPrefixText (g1 : Bytes) : Prop :=
  ∃ ws1 ws2 d, IsSpaces ws1 ∧ IsSpaces ws2 ∧ IsOneRune d ∧
    g1 = kwImport ++ ws1 ++ kwFetch ++ ws2 ++ urlHead ++ d ++ urlTail

/-- The text group 1 matches before the URL: `import`, white space,
`(fetchTarball`, white space. -/
def IsHeadText (gA : Bytes) : Prop :=
  ∃ ws1 ws2, IsSpaces ws1 ∧ IsSpaces ws2 ∧ gA = kwImport ++ ws1 ++ kwFetch ++ ws2

/-- No match attempt succeeds at an offset inside `pre` when `rest` follows. -/
def NoMatchBefore (pre rest : Bytes) : Prop :=
  ∀ pre1 pre2, pre = pre1 ++ pre2 → pre2 ≠ [] → matchAt (pre2 ++ rest) 0 = none

/-- The revisions pinned in a content, in order: the text of group 2 of each
successive match of `re`, the matches being those `ReplaceAll` visits. The
fuel bounds their number. -/
def pinnedLoop : Nat → Bytes → List Bytes
  | 0, _ => []
  | fuel + 1, c =>
    match doExecute c 0 with
    | none => []
    | some m => groupText c m 2 :: pinnedLoop fuel (c.drop (matchEnd m))

/-- The revisions pinned in a content; a match is never empty, so the length
of the content is fuel enough. -/
def pinnedRevisions (c : Bytes) : List Bytes := pinnedLoop (c.length + 1) c

/-- Whether a byte is a hexadecimal digit. -/
def isHexByte (b : Nat) : Bool :=
  (decide (48 ≤ b) && decide (b ≤ 57)) || (decide (97 ≤ b) && decide (b ≤ 102))
    || (decide (65 ≤ b) && decide (b ≤ 70))

/-- A hexadecimal string, as a commit identifier is. -/
def IsHex (x : Bytes) : Prop := ∀ b ∈ x, isHexByte b = true

/-- The capture array of a match that starts at `start` and whose groups 1
and 2 have `n1` and `n2` bytes (group 3 always has 9). -/
def capsOf (start n1 n2 : Nat) : Caps :=
  [some (start, start + n1 + n2 + 9), some (start, start + n1),
   some (start + n1, start + n1 + n2), some (start + n1 + n2, start + n1 + n2 + 9)]

/-! ## Concrete scenarios -/

/-- The literal prefix of the documented file format. -/
def documentedPrefix : Bytes :=
  utf8 "import (fetchTarball \"https://github.com/NixOS/nixpkgs/archive/"

/-- The line of the documented file format that pins revision `v`. -/
def pinnedLine (v : String) : Bytes :=
  utf8 ("import (fetchTarball \"https://github.com/NixOS/nixpkgs/archive/" ++ v ++ ".tar.gz\")")

/-- A Unicode table in which no rune outside ASCII is a letter or a digit;
the scenarios below are ASCII and never consult it. -/
def noUnicode : Nat → Bool := fun _ => false

/-- A working directory that holds one readable, writable file. -/
def oneFile (name : String) (content : Bytes) : FileSystem :=
  fun p => if p = name then .file content true true else .absent

/-- A world with one file, a given outcome of the HTTP exchange and an empty
trace. -/
def scenario (name : String) (content : Bytes) (fetch : Fetch) : World :=
  { fs := oneFile name content, fetch := fetch, trace := [] }

/-- A working directory without the two candidate files. -/
def emptyDir : World :=
  { fs := fun _ => .absent, fetch := .transportError (.other "no network"), trace := [] }

/-- A response whose body is not JSON: `json.Unmarshal` reports a syntax
error. -/
def badGateway : Fetch :=
  .decodeError (utf8 "<html>502 Bad Gateway</html>")
    (.other "invalid character '<' looking for beginning of value")

/-- A response whose body is the JSON object `{}`: `json.Unmarshal` returns
`nil` and leaves the struct at its zero value. -/
def emptyObject : Fetch := .decoded (utf8 "\x7b\x7d") []

/-- A response that names `def456` as the head of the branch. -/
def headDef456 : Fetch :=
  .decoded (utf8 "\x7b\"commit\":\x7b\"sha\":\"def456\"\x7d\x7d") (utf8 "def456")

/-- A Nix file without the pinned import:
`{ pkgs ? import <nixpkgs> {} }: pkgs.hello`. -/
def unpinnedFile : Bytes := utf8 "\x7b pkgs ? import <nixpkgs> \x7b\x7d \x7d: pkgs.hello"

/-! ## Lemmas on runes and on the steps of the matcher -/

set_option maxRecDepth 100000

theorem firstInfo_spec {p0 sz lo hi : Nat} (h : firstInfo p0 = some (sz, lo, hi)) :
    0xC2 ≤ p0 ∧ p0 ≤ 0xF4 ∧ 128 ≤ lo ∧ hi ≤ 0xBF ∧
      ((sz = 2 ∧ p0 < 0xE0) ∨ (sz = 3 ∧ 0xE0 ≤ p0 ∧ p0 < 0xF0 ∧ (p0 = 0xE0 → 0xA0 ≤ lo)) ∨
        (sz = 4 ∧ 0xF0 ≤ p0 ∧ (p0 = 0xF0 → 0x90 ≤ lo))) := by
  unfold firstInfo at h
  split_ifs at h <;> simp only [Option.some.injEq, Prod.mk.injEq] at h <;>
    (obtain ⟨rfl, rfl, rfl⟩ := h; omega)

theorem decodeRune_ascii (b : Nat) (rest : Bytes) (h : b < 128) :
    decodeRune (b :: rest) = (b, 1) := by
  simp [decodeRune, h]

theorem decodeRune_width_pos (b : Nat) (rest : Bytes) : 1 ≤ (decodeRune (b :: rest)).2 := by
  simp only [decodeRune]
  repeat' split
  all_goals simp

theorem decodeRune_width_le (inp : Bytes) : (decodeRune inp).2 ≤ inp.length := by
  cases inp with
  | nil => simp [decodeRune]
  | cons b rest =>
    simp only [decodeRune]
    repeat' split
    all_goals simp

theorem decodeRune_high (b : Nat) (rest : Bytes) (h : 128 ≤ b) :
    128 ≤ (decodeRune (b :: rest)).1 := by
  simp only [decodeRune]
  split
  · omega
  · split
    · simp [runeError]
    · rename_i sz lo hi hfi
      have hs := firstInfo_spec hfi
      repeat' split
      all_goals simp only [runeError]
      all_goals omega

theorem rune_take_ascii {inp : Bytes} {b : Nat} (hb : b ∈ inp.take (decodeRune inp).2)
    (h : b < 128) : decodeRune inp = (b, 1) := by
  cases inp with
  | nil => simp [decodeRune] at hb
  | cons p0 rest =>
    simp only [decodeRune] at hb ⊢
    split at hb
    · simp at hb; subst hb; simp [h]
    · rename_i hp0
      split at hb
      · simp at hb; omega
      · rename_i sz lo hi hfi
        have hs := firstInfo_spec hfi
        exfalso
        revert hb
        repeat' split
        all_goals simp [isCont] at *
        all_goals omega

theorem decodeRune_append_ascii {v : Bytes} (hv : v ≠ []) {c : Nat} (hc : c < 128) (t : Bytes) :
    (decodeRune (v ++ c :: t)).2 ≤ v.length := by
  by_contra hlt
  have hmem : c ∈ (v ++ c :: t).take (decodeRune (v ++ c :: t)).2 := by
    rw [List.take_append_eq_append_take]
    apply List.mem_append_right
    have : 0 < (decodeRune (v ++ c :: t)).2 - v.length := by omega
    obtain ⟨n, hn⟩ : ∃ n, (decodeRune (v ++ c :: t)).2 - v.length = n + 1 := ⟨_, (Nat.succ_pred_eq_of_pos this).symm⟩
    rw [hn]; simp
  have := rune_take_ascii hmem hc
  rw [this] at hlt
  cases v with
  | nil => exact hv rfl
  | cons a v => simp at hlt

theorem decodeRune_append_of_length {a : Bytes} (h : 4 ≤ a.length) (b : Bytes) :
    decodeRune (a ++ b) = decodeRune a := by
  match a, h with
  | a0 :: a1 :: a2 :: a3 :: a', _ => simp [decodeRune]

theorem space_accepts (b : Nat) (rest : Bytes) :
    CharClass.space.accepts (decodeRune (b :: rest)).1 = isSpaceByte b := by
  by_cases h : b < 128
  · rw [decodeRune_ascii b rest h]; rfl
  · have h1 := decodeRune_high b rest (by omega)
    have e1 : isSpaceByte b = false := by
      simp [isSpaceByte]; omega
    rw [e1]
    simp [CharClass.accepts, isSpaceByte]; omega

theorem isSpaceByte_lt {b : Nat} (h : isSpaceByte b = true) : b < 128 := by
  simp [isSpaceByte] at h; omega

theorem exec_cat (a b : Regex) (k : Cont) (inp : Bytes) (pos : Nat) (caps : Caps) :
    (Regex.cat a b).exec k inp pos caps = a.exec (b.exec k) inp pos caps := rfl

theorem exec_group (i : Nat) (r : Regex) (k : Cont) (inp : Bytes) (pos : Nat) (caps : Caps) :
    (Regex.group i r).exec k inp pos caps =
      r.exec (fun inp1 pos1 caps1 => k inp1 pos1 (caps1.set i (some (pos, pos1)))) inp pos caps := rfl

theorem exec_lit_append (s t : Bytes) (k : Cont) (pos : Nat) (caps : Caps) :
    (Regex.lit s).exec k (s ++ t) pos caps = k t (pos + s.length) caps := by
  have : s.isPrefixOf (s ++ t) = true := by
    rw [List.isPrefixOf_iff_prefix]; exact List.prefix_append s t
  simp [Regex.exec, this]

theorem exec_lit_some {s : Bytes} {k : Cont} {inp : Bytes} {pos : Nat} {caps : Caps}
    {r : Nat × Caps} (h : (Regex.lit s).exec k inp pos caps = some r) :
    ∃ t, inp = s ++ t ∧ k t (pos + s.length) caps = some r := by
  simp only [Regex.exec] at h
  split_ifs at h with hp
  rw [List.isPrefixOf_iff_prefix] at hp
  obtain ⟨t, rfl⟩ := hp
  exact ⟨t, rfl, by simpa using h⟩

theorem exec_lit_head_ne {c : Nat} {s : Bytes} {k : Cont} {b : Nat} {t : Bytes} {pos : Nat}
    {caps : Caps} (h : b ≠ c) : (Regex.lit (c :: s)).exec k (b :: t) pos caps = none := by
  simp [Regex.exec, List.isPrefixOf, h.symm]

theorem firstOf_none_left {α : Type} (b : Option α) : firstOf none b = b := rfl

theorem firstOf_some_left {α : Type} (a : α) (b : Option α) : firstOf (some a) b = some a := rfl

theorem firstOf_eq_some {α : Type} {a b : Option α} {r : α} (h : firstOf a b = some r) :
    a = some r ∨ (a = none ∧ b = some r) := by
  cases a with
  | none => right; exact ⟨rfl, h⟩
  | some x => left; exact h

theorem plusLoop_space_some {k : Cont} {r : Nat × Caps} :
    ∀ (fuel : Nat) (inp : Bytes) (pos : Nat) (caps : Caps),
      plusLoop .space true k fuel inp pos caps = some r →
      ∃ ws t, inp = ws ++ t ∧ ws ≠ [] ∧ (∀ b ∈ ws, isSpaceByte b = true) ∧
        k t (pos + ws.length) caps = some r := by
  intro fuel
  induction fuel with
  | zero => intro inp pos caps h; simp [plusLoop] at h
  | succ fuel ih =>
    intro inp pos caps h
    cases inp with
    | nil => simp [plusLoop] at h
    | cons b rest =>
      simp only [plusLoop, space_accepts] at h
      split_ifs at h with hb
      have hw : decodeRune (b :: rest) = (b, 1) := decodeRune_ascii b rest (isSpaceByte_lt hb)
      simp only [hw, List.drop_succ_cons, List.drop_zero, if_true] at h
      rcases firstOf_eq_some h with h1 | ⟨_, h2⟩
      · obtain ⟨ws, t, rfl, hne, hall, hk⟩ := ih rest (pos + 1) caps h1
        refine ⟨b :: ws, t, rfl, by simp, ?_, ?_⟩
        · intro x hx
          rcases List.mem_cons.1 hx with rfl | hx
          · exact hb
          · exact hall x hx
        · rw [← hk]; congr 1; simp; omega
      · exact ⟨[b], rest, rfl, by simp, by simpa using hb, by simpa using h2⟩

theorem plusLoop_space_append {k : Cont} {caps : Caps}
    (hk : ∀ b t p, isSpaceByte b = true → k (b :: t) p caps = none) :
    ∀ (ws : Bytes) (t : Bytes) (fuel pos : Nat), ws ≠ [] → (∀ b ∈ ws, isSpaceByte b = true) →
      (∀ b t', t = b :: t' → isSpaceByte b = false) → (ws ++ t).length < fuel →
      plusLoop .space true k fuel (ws ++ t) pos caps = k t (pos + ws.length) caps := by
  intro ws
  induction ws with
  | nil => intro t fuel pos h; exact absurd rfl h
  | cons b ws ih =>
    intro t fuel pos _ hall ht hfuel
    cases fuel with
    | zero => simp at hfuel
    | succ fuel =>
      have hb : isSpaceByte b = true := hall b (List.mem_cons_self _ _)
      have hw : decodeRune (b :: (ws ++ t)) = (b, 1) := decodeRune_ascii b _ (isSpaceByte_lt hb)
      have hacc : CharClass.space.accepts b = true := hb
      simp only [List.cons_append, plusLoop, hw, hacc, if_true, List.drop_succ_cons,
        List.drop_zero]
      cases ws with
      | nil =>
        have hnone : plusLoop .space true k fuel ([] ++ t) (pos + 1) caps = none := by
          cases fuel with
          | zero => rfl
          | succ fuel =>
            cases t with
            | nil => rfl
            | cons c t' =>
              simp only [List.nil_append, plusLoop, space_accepts, ht c t' rfl]
              simp
        rw [hnone, firstOf_none_left]; simp
      | cons c ws' =>
        have hlen : ((c :: ws') ++ t).length < fuel := by
          simp only [List.length_cons, List.length_append] at hfuel ⊢; omega
        have hrec := ih t fuel (pos + 1) (by simp) (fun x hx => hall x (List.mem_cons_of_mem _ hx)) ht
          hlen
        rw [hrec]
        have hc : isSpaceByte c = true := hall c (by simp)
        have : k ((c :: ws') ++ t) (pos + 1) caps = none := hk c (ws' ++ t) _ hc
        rw [this]
        have e : pos + 1 + (c :: ws').length = pos + (b :: c :: ws').length := by
          simp only [List.length_cons]; omega
        rw [e]
        cases k t (pos + (b :: c :: ws').length) caps <;> rfl

theorem exec_any_some {k : Cont} {inp : Bytes} {pos : Nat} {caps : Caps} {r : Nat × Caps}
    (h : (Regex.char .any).exec k inp pos caps = some r) :
    ∃ d t, inp = d ++ t ∧ d ≠ [] ∧ (decodeRune (d ++ t)).2 = d.length ∧
      k t (pos + d.length) caps = some r := by
  cases inp with
  | nil => simp [Regex.exec] at h
  | cons b rest =>
    simp only [Regex.exec, CharClass.accepts, if_true] at h
    have hpos := decodeRune_width_pos b rest
    have hle := decodeRune_width_le (b :: rest)
    refine ⟨(b :: rest).take (decodeRune (b :: rest)).2, (b :: rest).drop (decodeRune (b :: rest)).2,
      (List.take_append_drop _ _).symm, ?_, ?_, ?_⟩
    · intro hnil
      have := congrArg List.length hnil
      rw [List.length_take] at this
      simp at this; omega
    · rw [List.take_append_drop, List.length_take]; omega
    · rw [List.length_take, Nat.min_eq_left hle]; exact h

theorem exec_any_append {d : Bytes} (hd : d ≠ []) (t : Bytes)
    (hw : (decodeRune (d ++ t)).2 = d.length) (k : Cont) (pos : Nat) (caps : Caps) :
    (Regex.char .any).exec k (d ++ t) pos caps = k t (pos + d.length) caps := by
  cases d with
  | nil => exact absurd rfl hd
  | cons b d' =>
    simp only [List.cons_append, Regex.exec, CharClass.accepts, if_true]
    rw [List.cons_append] at hw
    rw [hw]
    have : List.drop (b :: d').length (b :: (d' ++ t)) = t := by
      rw [← List.cons_append]; exact List.drop_left _ _
    rw [this]

theorem notQuote_accepts_of_head {b : Nat} (rest : Bytes) (hb : b ≠ 34) :
    (CharClass.notByte 34).accepts (decodeRune (b :: rest)).1 = true := by
  by_cases h : b < 128
  · rw [decodeRune_ascii b rest h]; simp [CharClass.accepts, hb]
  · have h1 := decodeRune_high b rest (by omega)
    simp [CharClass.accepts]; omega

theorem plusLoop_lazy_some {k : Cont} {r : Nat × Caps} :
    ∀ (fuel : Nat) (inp : Bytes) (pos : Nat) (caps : Caps),
      plusLoop (.notByte 34) false k fuel inp pos caps = some r →
      ∃ v t, inp = v ++ t ∧ v ≠ [] ∧ 34 ∉ v ∧ k t (pos + v.length) caps = some r := by
  intro fuel
  induction fuel with
  | zero => intro inp pos caps h; simp [plusLoop] at h
  | succ fuel ih =>
    intro inp pos caps h
    cases inp with
    | nil => simp [plusLoop] at h
    | cons b rest =>
      simp only [plusLoop, Bool.false_eq_true, ↓reduceIte] at h
      split_ifs at h with hacc
      have hpos := decodeRune_width_pos b rest
      have hle := decodeRune_width_le (b :: rest)
      set w := (decodeRune (b :: rest)).2 with hwdef
      have hsplit : b :: rest = (b :: rest).take w ++ (b :: rest).drop w :=
        (List.take_append_drop _ _).symm
      have hne : (b :: rest).take w ≠ [] := by
        intro hnil
        have := congrArg List.length hnil
        rw [List.length_take] at this
        simp at this; omega
      have hnq : 34 ∉ (b :: rest).take w := by
        intro hmem
        have := rune_take_ascii hmem (by omega)
        rw [this] at hacc
        simp [CharClass.accepts] at hacc
      have hlen : ((b :: rest).take w).length = w := by
        rw [List.length_take]; omega
      rcases firstOf_eq_some h with h1 | ⟨_, h2⟩
      · exact ⟨_, _, hsplit, hne, hnq, by rw [hlen]; exact h1⟩
      · obtain ⟨v, t, hvt, hv, hq, hk⟩ := ih _ _ _ h2
        refine ⟨(b :: rest).take w ++ v, t, ?_, by simp [hne], ?_, ?_⟩
        · rw [List.append_assoc, ← hvt]; exact hsplit
        · intro hmem
          rcases List.mem_append.1 hmem with h' | h'
          · exact hnq h'
          · exact hq h'
        · rw [List.length_append, hlen, ← Nat.add_assoc]; exact hk

theorem plusLoop_lazy_append {k : Cont} {caps : Caps} {c : Nat} {t' : Bytes} (hc : c < 128)
    (hfail : ∀ v2 p, v2 ≠ [] → 34 ∉ v2 → k (v2 ++ c :: t') p caps = none) {r : Nat × Caps} :
    ∀ (fuel : Nat) (v : Bytes) (pos : Nat), v ≠ [] → 34 ∉ v → (v ++ c :: t').length < fuel →
      k (c :: t') (pos + v.length) caps = some r →
      plusLoop (.notByte 34) false k fuel (v ++ c :: t') pos caps = some r := by
  intro fuel
  induction fuel with
  | zero => intro v pos _ _ h; simp at h
  | succ fuel ih =>
    intro v pos hv hq hfuel hk
    cases v with
    | nil => exact absurd rfl hv
    | cons b v' =>
      have hb : b ≠ 34 := fun e => hq (by simp [e])
      have hacc := notQuote_accepts_of_head (v' ++ c :: t') hb
      have hle := decodeRune_append_ascii hv hc t'
      have hpos := decodeRune_width_pos b (v' ++ c :: t')
      simp only [List.cons_append] at hle ⊢
      simp only [plusLoop, hacc, if_true, Bool.false_eq_true, ↓reduceIte]
      set w := (decodeRune (b :: (v' ++ c :: t'))).2 with hwdef
      have hdrop : List.drop w (b :: (v' ++ c :: t')) = (b :: v').drop w ++ c :: t' := by
        rw [← List.cons_append, List.drop_append_of_le_length hle]
      rw [hdrop]
      by_cases hnil : (b :: v').drop w = []
      · have hw : w = (b :: v').length := by
          have := congrArg List.length hnil
          rw [List.length_drop, List.length_nil] at this
          omega
        rw [hnil, List.nil_append, hw, hk]; rfl
      · have hq2 : 34 ∉ (b :: v').drop w := fun hm => hq (List.mem_of_mem_drop hm)
        rw [hfail _ _ hnil hq2, firstOf_none_left]
        apply ih _ _ hnil hq2
        · simp only [List.length_append, List.length_drop, List.length_cons] at hfuel ⊢
          omega
        · have : pos + w + ((b :: v').drop w).length = pos + (b :: v').length := by
            rw [List.length_drop]; omega
          rw [this]; exact hk

theorem exec_plus (c : CharClass) (g : Bool) (k : Cont) (inp : Bytes) (pos : Nat) (caps : Caps) :
    (Regex.plus c g).exec k inp pos caps = plusLoop c g k (inp.length + 1) inp pos caps := rfl

/-! ## What one match attempt accepts -/

theorem kwImport_length : kwImport.length = 6 := by decide
theorem kwFetch_length : kwFetch.length = 13 := by decide
theorem urlHead_length : urlHead.length = 15 := by decide
theorem urlTail_length : urlTail.length = 26 := by decide
theorem tarSuffix_length : tarSuffix.length = 9 := by decide
theorem kwFetch_eq : kwFetch = 40 :: utf8 "fetchTarball" := by decide
theorem urlHead_eq : urlHead = 34 :: utf8 "https://github" := by decide
theorem urlTail_eq : urlTail = 99 :: utf8 "om/NixOS/nixpkgs/archive/" := by decide
theorem tarSuffix_eq : tarSuffix = 46 :: utf8 "tar.gz\")" := by decide

theorem matchAt_some {inp : Bytes} {start : Nat} {caps : Caps} (h : matchAt inp start = some caps) :
    ∃ g1 v rest, inp = g1 ++ v ++ tarSuffix ++ rest ∧ IsPrefixText g1 ∧ v ≠ [] ∧ 34 ∉ v ∧
      caps = capsOf start g1.length v.length := by
  simp only [matchAt, Option.map_eq_some'] at h
  obtain ⟨r, h, rfl⟩ := h
  simp only [re, exec_cat, exec_group] at h
  obtain ⟨t1, e1, h1⟩ := exec_lit_some h
  rw [exec_cat, exec_plus] at h1
  obtain ⟨ws1, t2, e2, hws1, hall1, h2⟩ := plusLoop_space_some _ _ _ _ h1
  rw [exec_cat] at h2
  obtain ⟨t3, e3, h3⟩ := exec_lit_some h2
  rw [exec_cat, exec_plus] at h3
  obtain ⟨ws2, t4, e4, hws2, hall2, h4⟩ := plusLoop_space_some _ _ _ _ h3
  rw [exec_cat] at h4
  obtain ⟨t5, e5, h5⟩ := exec_lit_some h4
  rw [exec_cat] at h5
  obtain ⟨d, t6, e6, hd, hdw, h6⟩ := exec_any_some h5
  obtain ⟨t7, e7, h7⟩ := exec_lit_some h6
  rw [exec_plus] at h7
  obtain ⟨v, t8, e8, hv, hq, h8⟩ := plusLoop_lazy_some _ _ _ _ h7
  obtain ⟨rest, e9, h9⟩ := exec_lit_some h8
  simp only [Option.some.injEq] at h9
  subst h9
  subst e9 e8 e7
  refine ⟨kwImport ++ ws1 ++ kwFetch ++ ws2 ++ urlHead ++ d ++ urlTail, v, rest, ?_,
    ⟨ws1, ws2, d, ⟨hws1, hall1⟩, ⟨hws2, hall2⟩, ⟨hd, ?_⟩, rfl⟩, hv, hq, ?_⟩
  · rw [e1, e2, e3, e4, e5, e6]; simp
  · have hlen : 4 ≤ (d ++ urlTail).length := by rw [List.length_append, urlTail_length]; omega
    have := decodeRune_append_of_length hlen (v ++ (tarSuffix ++ rest))
    rw [List.append_assoc] at this
    rw [← this]; exact hdw
  · simp only [numGroups, List.replicate, List.set, capsOf, List.length_append, kwImport_length,
      kwFetch_length, urlHead_length, urlTail_length, tarSuffix_length]
    simp only [List.cons.injEq, Option.some.injEq, Prod.mk.injEq, and_true, true_and]
    omega

theorem space_not_paren : ∀ b t p (k : Cont) (caps : Caps), isSpaceByte b = true →
    (Regex.lit kwFetch).exec k (b :: t) p caps = none := by
  intro b t p k caps hb
  rw [kwFetch_eq]
  apply exec_lit_head_ne
  intro e; subst e; simp [isSpaceByte] at hb

theorem space_not_quote : ∀ b t p (k : Cont) (caps : Caps), isSpaceByte b = true →
    (Regex.lit urlHead).exec k (b :: t) p caps = none := by
  intro b t p k caps hb
  rw [urlHead_eq]
  apply exec_lit_head_ne
  intro e; subst e; simp [isSpaceByte] at hb

theorem suffix_after_quoteFree {v2 : Bytes} (hv : v2 ≠ []) (hq : 34 ∉ v2) (t : Bytes) :
    tarSuffix.isPrefixOf (v2 ++ tarSuffix ++ t) = false := by
  have hs : tarSuffix = [46, 116, 97, 114, 46, 103, 122, 34, 41] := by decide
  rw [hs]
  match v2, hv, hq with
  | [a], _, hq => simp [List.isPrefixOf]
  | [a, b], _, hq => simp [List.isPrefixOf]
  | [a, b, c], _, hq => simp [List.isPrefixOf]
  | [a, b, c, d], _, hq => simp [List.isPrefixOf]
  | [a, b, c, d, e], _, hq => simp [List.isPrefixOf]
  | [a, b, c, d, e, f], _, hq => simp [List.isPrefixOf]
  | [a, b, c, d, e, f, g], _, hq => simp [List.isPrefixOf]
  | a :: b :: c :: d :: e :: f :: g :: h :: rest, _, hq =>
    simp [List.isPrefixOf] at hq ⊢; intros; omega

theorem exec_lit_none {s : Bytes} {inp : Bytes} (h : s.isPrefixOf inp = false) (k : Cont)
    (pos : Nat) (caps : Caps) : (Regex.lit s).exec k inp pos caps = none := by
  simp [Regex.exec, h]

theorem decodeRune_oneRune {d : Bytes} (hdw : (decodeRune (d ++ urlTail)).2 = d.length)
    (t : Bytes) : (decodeRune (d ++ (urlTail ++ t))).2 = d.length := by
  have hlen : 4 ≤ (d ++ urlTail).length := by rw [List.length_append, urlTail_length]; omega
  have := decodeRune_append_of_length hlen t
  rw [List.append_assoc] at this
  rw [this]; exact hdw

theorem matchAt_append {g1 v : Bytes} (hg : IsPrefixText g1) (hv : v ≠ []) (hq : 34 ∉ v)
    (rest : Bytes) (start : Nat) :
    matchAt (g1 ++ v ++ tarSuffix ++ rest) start = some (capsOf start g1.length v.length) := by
  obtain ⟨ws1, ws2, d, ⟨hws1, hall1⟩, ⟨hws2, hall2⟩, ⟨hd, hdw⟩, rfl⟩ := hg
  simp only [matchAt, re, exec_cat, exec_group, List.append_assoc]
  rw [exec_lit_append, exec_cat, exec_plus]
  rw [plusLoop_space_append (fun b t p hb => by rw [exec_cat]; exact space_not_paren b t p _ _ hb)
    ws1 _ _ _ hws1 hall1
    (by rw [kwFetch_eq]; intro b t' e; simp at e; rw [← e.1]; rfl) (by omega)]
  rw [exec_cat, exec_lit_append, exec_cat, exec_plus]
  rw [plusLoop_space_append (fun b t p hb => by rw [exec_cat]; exact space_not_quote b t p _ _ hb)
    ws2 _ _ _ hws2 hall2
    (by rw [urlHead_eq]; intro b t' e; simp at e; rw [← e.1]; rfl) (by omega)]
  rw [exec_cat, exec_lit_append, exec_cat, exec_any_append hd _ (decodeRune_oneRune hdw _)]
  rw [exec_lit_append, exec_plus]
  have hsuf : tarSuffix ++ rest = 46 :: (utf8 "tar.gz\")" ++ rest) := by rw [tarSuffix_eq]; rfl
  rw [hsuf]
  rw [plusLoop_lazy_append (c := 46) (by omega) ?_ _ v _ hv hq (by omega)
    (by rw [← hsuf, exec_lit_append])]
  · simp only [numGroups, List.replicate, List.set, capsOf, List.length_append, kwImport_length,
      kwFetch_length, urlHead_length, urlTail_length, tarSuffix_length, Option.map_some']
    simp only [List.cons.injEq, Option.some.injEq, Prod.mk.injEq, and_true, true_and]
    omega
  · intro v2 p hv2 hq2
    rw [← hsuf]
    apply exec_lit_none
    rw [← List.append_assoc]
    exact suffix_after_quoteFree hv2 hq2 rest

/-! ## The leftmost match -/

theorem matchAt_start {inp : Bytes} {s : Nat} {caps : Caps} (h : matchAt inp s = some caps)
    (s' : Nat) : ∃ n1 n2, caps = capsOf s n1 n2 ∧ matchAt inp s' = some (capsOf s' n1 n2) := by
  obtain ⟨g1, v, rest, rfl, hg, hv, hq, rfl⟩ := matchAt_some h
  exact ⟨_, _, rfl, matchAt_append hg hv hq rest s'⟩

theorem matchAt_none_start {inp : Bytes} {s : Nat} (h : matchAt inp s = none) (s' : Nat) :
    matchAt inp s' = none := by
  cases h' : matchAt inp s' with
  | none => rfl
  | some caps =>
    obtain ⟨n1, n2, _, h2⟩ := matchAt_start h' s
    rw [h] at h2; cases h2

theorem matchAt_nil (s : Nat) : matchAt [] s = none := by
  cases h : matchAt [] s with
  | none => rfl
  | some caps =>
    obtain ⟨g1, v, rest, e, _, hv, _, _⟩ := matchAt_some h
    have := congrArg List.length e
    simp [tarSuffix_length] at this
    omega

theorem findFrom_of_matchAt {inp : Bytes} {s : Nat} {caps : Caps}
    (h : matchAt inp s = some caps) : findFrom inp s = some caps := by
  cases inp with
  | nil => exact h
  | cons b rest => simp [findFrom, h, firstOf]

theorem findFrom_append {pre rest : Bytes} (h : NoMatchBefore pre rest) (s : Nat) :
    findFrom (pre ++ rest) s = findFrom rest (s + pre.length) := by
  induction pre generalizing s with
  | nil => simp
  | cons b pre ih =>
    have h0 : matchAt (b :: pre ++ rest) s = none :=
      matchAt_none_start (h [] (b :: pre) rfl (by simp)) s
    have hrec : NoMatchBefore pre rest := by
      intro p1 p2 e hne
      exact h (b :: p1) p2 (by rw [e]; rfl) hne
    rw [List.cons_append, findFrom, ← List.cons_append, h0, firstOf_none_left, ih hrec]
    simp only [List.length_cons]; congr 1; omega

theorem findFrom_some {inp : Bytes} {s : Nat} {caps : Caps} (h : findFrom inp s = some caps) :
    ∃ pre rest, inp = pre ++ rest ∧ NoMatchBefore pre rest ∧
      matchAt rest (s + pre.length) = some caps := by
  induction inp generalizing s with
  | nil => exact ⟨[], [], rfl, fun p1 p2 e hne => by simp at e; exact absurd e.2 hne, h⟩
  | cons b inp ih =>
    rw [findFrom] at h
    rcases firstOf_eq_some h with h1 | ⟨h0, h2⟩
    · exact ⟨[], b :: inp, rfl, fun p1 p2 e hne => by simp at e; exact absurd e.2 hne, h1⟩
    · obtain ⟨pre, rest, rfl, hno, hm⟩ := ih h2
      refine ⟨b :: pre, rest, rfl, ?_, ?_⟩
      · intro p1 p2 e hne
        cases p1 with
        | nil =>
          simp only [List.nil_append] at e
          subst e
          exact matchAt_none_start h0 0
        | cons c p1 =>
          simp only [List.cons_append, List.cons.injEq] at e
          exact hno p1 p2 e.2 hne
      · rw [← hm]; simp only [List.length_cons]; congr 1; omega

theorem findFrom_none {inp : Bytes} {s : Nat} (h : findFrom inp s = none) :
    ∀ pre rest, inp = pre ++ rest → matchAt rest 0 = none := by
  induction inp generalizing s with
  | nil =>
    intro pre rest e
    simp at e
    rw [e.2]; exact matchAt_nil 0
  | cons b inp ih =>
    intro pre rest e
    rw [findFrom] at h
    have h0 : matchAt (b :: inp) s = none := by
      cases hm : matchAt (b :: inp) s with
      | none => rfl
      | some c => rw [hm] at h; cases h
    rw [h0, firstOf_none_left] at h
    cases pre with
    | nil => simp at e; rw [← e]; exact matchAt_none_start h0 0
    | cons c pre =>
      simp only [List.cons_append, List.cons.injEq] at e
      exact ih h pre rest e.2

/-- The shape of the leftmost match. -/
theorem doExecute_zero_some {c : Bytes} {caps : Caps} (h : doExecute c 0 = some caps) :
    ∃ pre g1 v post, c = pre ++ g1 ++ v ++ tarSuffix ++ post ∧ IsPrefixText g1 ∧ v ≠ [] ∧
      34 ∉ v ∧ NoMatchBefore pre (g1 ++ v ++ tarSuffix ++ post) ∧
      caps = capsOf pre.length g1.length v.length := by
  simp only [doExecute, List.drop_zero] at h
  obtain ⟨pre, rest, rfl, hno, hm⟩ := findFrom_some h
  obtain ⟨g1, v, post, rfl, hg, hv, hq, rfl⟩ := matchAt_some hm
  exact ⟨pre, g1, v, post, by simp, hg, hv, hq, hno, by simp⟩

theorem doExecute_zero_of_shape {pre g1 v post : Bytes} (hg : IsPrefixText g1) (hv : v ≠ [])
    (hq : 34 ∉ v) (hno : NoMatchBefore pre (g1 ++ v ++ tarSuffix ++ post)) :
    doExecute (pre ++ g1 ++ v ++ tarSuffix ++ post) 0 = some (capsOf pre.length g1.length v.length) := by
  simp only [doExecute, List.drop_zero]
  have e : pre ++ g1 ++ v ++ tarSuffix ++ post = pre ++ (g1 ++ v ++ tarSuffix ++ post) := by simp
  rw [e, findFrom_append hno]
  apply findFrom_of_matchAt
  rw [matchAt_append hg hv hq]; simp

/-! ## Expansion of the template of `bump` -/

theorem cutDollar_append {X : Bytes} (hX : 36 ∉ X) (t : Bytes) :
    cutDollar (X ++ 36 :: t) = some (X, t) := by
  induction X with
  | nil => simp [cutDollar]
  | cons b X ih =>
    have hb : b ≠ 36 := fun e => hX (by simp [e])
    have hX' : 36 ∉ X := fun h => hX (List.mem_cons_of_mem _ h)
    simp [cutDollar, hb, ih hX']

theorem cutDollar_none {X : Bytes} (hX : 36 ∉ X) : cutDollar X = none := by
  induction X with
  | nil => rfl
  | cons b X ih =>
    have hb : b ≠ 36 := fun e => hX (by simp [e])
    have hX' : 36 ∉ X := fun h => hX (List.mem_cons_of_mem _ h)
    simp [cutDollar, hb, ih hX']

theorem extract_braced_digit (uni : Nat → Bool) (dgt : Nat) (h1 : 49 ≤ dgt) (h2 : dgt ≤ 57)
    (R : Bytes) : extract uni (123 :: dgt :: 125 :: R) = some ([dgt], some (dgt - 48), R) := by
  have hd : decodeRune (dgt :: 125 :: R) = (dgt, 1) := decodeRune_ascii _ _ (by omega)
  have hc : decodeRune (125 :: R) = (125, 1) := decodeRune_ascii _ _ (by omega)
  have hn : isNameRune uni dgt = true := by
    simp only [isNameRune]
    have e1 : dgt < 128 := by omega
    have e2 : 48 ≤ dgt := by omega
    simp [e1, e2, h2]
  have hl : nameLen uni (dgt :: 125 :: R).length (dgt :: 125 :: R) = 1 := by
    simp only [List.length_cons, nameLen, hd, hn, if_true, List.drop_succ_cons, List.drop_zero, hc]
    simp [isNameRune]
  simp only [extract, beq_self_eq_true, if_true, hl]
  simp [parseNum]
  omega

theorem bumpTemplate_eq (X : Bytes) :
    bumpTemplate X = 36 :: 123 :: 49 :: 125 :: (X ++ [36, 123, 51, 125]) := by
  have h1 : utf8 "${1}" = [36, 123, 49, 125] := by decide
  have h2 : utf8 "${3}" = [36, 123, 51, 125] := by decide
  simp [bumpTemplate, h1, h2]

theorem expand_bumpTemplate (uni : Nat → Bool) {X : Bytes} (hX : 36 ∉ X) (dst src : Bytes)
    (caps : Caps) :
    expand uni dst (bumpTemplate X) src caps =
      dst ++ groupText src caps 1 ++ X ++ groupText src caps 3 := by
  have hf : (bumpTemplate X).length + 1 = (X.length + 6) + 3 := by
    rw [bumpTemplate_eq]; simp; 
  rw [expand, hf, bumpTemplate_eq]
  have c1 : cutDollar (36 :: 123 :: 49 :: 125 :: (X ++ [36, 123, 51, 125])) =
      some ([], 123 :: 49 :: 125 :: (X ++ [36, 123, 51, 125])) := by simp [cutDollar]
  rw [expandLoop]
  simp only [c1, extract_braced_digit uni 49 (by omega) (by omega), numGroups]
  rw [expandLoop]
  simp only [cutDollar_append hX, extract_braced_digit uni 51 (by omega) (by omega), numGroups]
  rw [expandLoop]
  simp [cutDollar]

/-! ## The loop of `ReplaceAll` -/

theorem decodeRune_width_le_four (inp : Bytes) : (decodeRune inp).2 ≤ 4 := by
  cases inp with
  | nil => simp [decodeRune]
  | cons b rest =>
    simp only [decodeRune]
    repeat' split
    all_goals simp

theorem slice_mid (x y z : Bytes) {lo hi : Nat} (hlo : lo = x.length)
    (hhi : hi = x.length + y.length) : slice (x ++ y ++ z) lo hi = y := by
  subst hlo hhi
  simp [slice, List.take_append_eq_append_take, List.drop_append_eq_append_drop]

theorem findFrom_none_start {inp : Bytes} {s : Nat} (h : findFrom inp s = none) (s' : Nat) :
    findFrom inp s' = none := by
  cases h' : findFrom inp s' with
  | none => rfl
  | some caps =>
    obtain ⟨pre, rest, e, _, hm⟩ := findFrom_some h'
    have := findFrom_none h pre rest e
    rw [matchAt_none_start this] at hm; cases hm

theorem doExecute_append_none {a b : Bytes} (h : doExecute b 0 = none) :
    doExecute (a ++ b) a.length = none := by
  simp only [doExecute, List.drop_zero, List.drop_left] at h ⊢
  exact findFrom_none_start h _

theorem doExecute_append_some {a pre g1 v post : Bytes} (hg : IsPrefixText g1) (hv : v ≠ [])
    (hq : 34 ∉ v) (hno : NoMatchBefore pre (g1 ++ v ++ tarSuffix ++ post)) :
    doExecute (a ++ (pre ++ g1 ++ v ++ tarSuffix ++ post)) a.length =
      some (capsOf (a.length + pre.length) g1.length v.length) := by
  simp only [doExecute, List.drop_left]
  have e : pre ++ g1 ++ v ++ tarSuffix ++ post = pre ++ (g1 ++ v ++ tarSuffix ++ post) := by simp
  rw [e, findFrom_append hno]
  apply findFrom_of_matchAt
  rw [matchAt_append hg hv hq]

theorem matchStart_capsOf (s n1 n2 : Nat) : matchStart (capsOf s n1 n2) = s := rfl
theorem matchEnd_capsOf (s n1 n2 : Nat) : matchEnd (capsOf s n1 n2) = s + n1 + n2 + 9 := rfl

theorem groupText_one {x g1 z : Bytes} (n2 : Nat) :
    groupText (x ++ g1 ++ z) (capsOf x.length g1.length n2) 1 = g1 := by
  simp only [groupText, capsOf, List.getD_cons_succ, List.getD_cons_zero]
  exact slice_mid x g1 z rfl rfl

theorem groupText_two {x g1 v z : Bytes} :
    groupText (x ++ g1 ++ v ++ z) (capsOf x.length g1.length v.length) 2 = v := by
  simp only [groupText, capsOf, List.getD_cons_succ, List.getD_cons_zero]
  exact slice_mid (x ++ g1) v z (by simp) (by simp)

theorem groupText_three {x g1 v z : Bytes} :
    groupText (x ++ g1 ++ v ++ tarSuffix ++ z) (capsOf x.length g1.length v.length) 3 =
      tarSuffix := by
  simp only [groupText, capsOf, List.getD_cons_succ, List.getD_cons_zero]
  exact slice_mid (x ++ g1 ++ v) tarSuffix z (by simp; omega) (by simp [tarSuffix_length]; omega)

/-- One turn of the loop of `replaceAll` when no match is left. -/
theorem replaceAllLoop_none {a b : Bytes} (h : doExecute b 0 = none)
    (repl : Bytes → Caps → Bytes) (fuel : Nat) (buf : Bytes) :
    replaceAllLoop (a ++ b) repl fuel a.length a.length buf = buf ++ b := by
  cases fuel with
  | zero => simp [replaceAllLoop]
  | succ fuel =>
    simp [replaceAllLoop, doExecute_append_none h]

/-- One turn of the loop of `replaceAll` at a match. -/
theorem replaceAllLoop_some (uni : Nat → Bool) {X : Bytes} (hX : 36 ∉ X)
    {a pre g1 v post : Bytes} (hg : IsPrefixText g1) (hv : v ≠ [])
    (hq : 34 ∉ v) (hno : NoMatchBefore pre (g1 ++ v ++ tarSuffix ++ post)) (fuel : Nat)
    (buf : Bytes) :
    replaceAllLoop (a ++ (pre ++ g1 ++ v ++ tarSuffix ++ post))
        (fun dst m => expand uni dst (bumpTemplate X) (a ++ (pre ++ g1 ++ v ++ tarSuffix ++ post)) m)
        (fuel + 1) a.length a.length buf =
      replaceAllLoop (a ++ (pre ++ g1 ++ v ++ tarSuffix ++ post))
        (fun dst m => expand uni dst (bumpTemplate X) (a ++ (pre ++ g1 ++ v ++ tarSuffix ++ post)) m)
        fuel (a ++ pre ++ g1 ++ v ++ tarSuffix).length (a ++ pre ++ g1 ++ v ++ tarSuffix).length
        (buf ++ pre ++ g1 ++ X ++ tarSuffix) := by
  have hw := decodeRune_width_le_four (List.drop a.length (a ++ (pre ++ g1 ++ v ++ tarSuffix ++ post)))
  have e1 : a ++ (pre ++ g1 ++ v ++ tarSuffix ++ post) =
      (a ++ pre) ++ g1 ++ (v ++ tarSuffix ++ post) := by simp
  have e3 : a ++ (pre ++ g1 ++ v ++ tarSuffix ++ post) =
      (a ++ pre) ++ g1 ++ v ++ tarSuffix ++ post := by simp
  have e0 : a ++ (pre ++ g1 ++ v ++ tarSuffix ++ post) =
      a ++ pre ++ (g1 ++ v ++ tarSuffix ++ post) := by simp
  have hl : (a ++ pre).length = a.length + pre.length := by simp
  have g1e : groupText (a ++ (pre ++ g1 ++ v ++ tarSuffix ++ post))
      (capsOf (a.length + pre.length) g1.length v.length) 1 = g1 := by
    rw [e1, ← hl]; exact groupText_one _
  have g3e : groupText (a ++ (pre ++ g1 ++ v ++ tarSuffix ++ post))
      (capsOf (a.length + pre.length) g1.length v.length) 3 = tarSuffix := by
    rw [e3, ← hl]; exact groupText_three
  have sle : slice (a ++ (pre ++ g1 ++ v ++ tarSuffix ++ post)) a.length
      (a.length + pre.length) = pre := by
    rw [e0]; exact slice_mid a pre _ rfl rfl
  rw [replaceAllLoop]
  simp only [doExecute_append_some hg hv hq hno, matchStart_capsOf, matchEnd_capsOf,
    expand_bumpTemplate uni hX, g1e, g3e, sle]
  have hlen : (a ++ pre ++ g1 ++ v ++ tarSuffix).length =
      a.length + pre.length + g1.length + v.length + 9 := by
    simp [tarSuffix_length]; omega
  rw [hlen]
  have c0 : a.length ≤ (a ++ (pre ++ g1 ++ v ++ tarSuffix ++ post)).length := by simp
  have c1 : a.length + pre.length + g1.length + v.length + 9 > a.length ∨
      a.length + pre.length = 0 := Or.inl (by omega)
  have c2 : ¬ (a.length + (decodeRune (List.drop a.length
      (a ++ (pre ++ g1 ++ v ++ tarSuffix ++ post)))).2 >
        a.length + pre.length + g1.length + v.length + 9) := by omega
  have c3 : ¬ (a.length + 1 > a.length + pre.length + g1.length + v.length + 9) := by omega
  simp only [c0, c1, c2, c3, if_true, if_false]

theorem replaceAll_none (uni : Nat → Bool) {b : Bytes} (h : doExecute b 0 = none)
    (repl : Bytes) : replaceAll uni b repl = b := by
  have := replaceAllLoop_none (a := []) h (fun dst m => expand uni dst repl b m) (b.length + 2) []
  simpa [replaceAll] using this

theorem replaceAllLoop_patch (uni : Nat → Bool) {X : Bytes} (hX : 36 ∉ X) :
    ∀ (n : Nat) (b : Bytes), b.length ≤ n → ∀ (fuel : Nat), b.length < fuel →
      ∀ (a buf : Bytes),
        replaceAllLoop (a ++ b) (fun dst m => expand uni dst (bumpTemplate X) (a ++ b) m)
          fuel a.length a.length buf = buf ++ patch uni b X := by
  intro n
  induction n with
  | zero =>
    intro b hb fuel hfuel a buf
    have hb' : b = [] := List.eq_nil_of_length_eq_zero (by omega)
    subst hb'
    have hnone : doExecute [] 0 = none := matchAt_nil 0
    rw [replaceAllLoop_none hnone, patch, replaceAll_none uni hnone]
  | succ n ih =>
    intro b hb fuel hfuel a buf
    cases hd : doExecute b 0 with
    | none => rw [replaceAllLoop_none hd, patch, replaceAll_none uni hd]
    | some caps =>
      obtain ⟨pre, g1, v, post, rfl, hg, hv, hq, hno, rfl⟩ := doExecute_zero_some hd
      have hpost : post.length ≤ n := by
        simp only [List.length_append, tarSuffix_length] at hb; omega
      have hlt : post.length < (pre ++ g1 ++ v ++ tarSuffix ++ post).length := by
        simp only [List.length_append, tarSuffix_length]; omega
      have key : ∀ (a buf : Bytes) (f : Nat), post.length < f →
          replaceAllLoop (a ++ (pre ++ g1 ++ v ++ tarSuffix ++ post))
            (fun dst m => expand uni dst (bumpTemplate X)
              (a ++ (pre ++ g1 ++ v ++ tarSuffix ++ post)) m)
            (f + 1) a.length a.length buf =
          buf ++ pre ++ g1 ++ X ++ tarSuffix ++ patch uni post X := by
        intro a buf f hf
        rw [replaceAllLoop_some uni hX hg hv hq hno]
        have e : a ++ (pre ++ g1 ++ v ++ tarSuffix ++ post) =
            (a ++ pre ++ g1 ++ v ++ tarSuffix) ++ post := by simp
        rw [e]
        exact ih post hpost f hf _ _
      cases fuel with
      | zero => omega
      | succ f =>
        rw [key a buf f (by omega)]
        have hp := key [] [] ((pre ++ g1 ++ v ++ tarSuffix ++ post).length + 1) (by omega)
        simp only [List.nil_append, List.length_nil] at hp
        have hp' : patch uni (pre ++ g1 ++ v ++ tarSuffix ++ post) X =
            pre ++ g1 ++ X ++ tarSuffix ++ patch uni post X := hp
        rw [hp']
        simp

theorem patch_none (uni : Nat → Bool) {c : Bytes} (h : doExecute c 0 = none) (X : Bytes) :
    patch uni c X = c := replaceAll_none uni h _

theorem patch_first (uni : Nat → Bool) {X : Bytes} (hX : 36 ∉ X) {pre g1 v post : Bytes}
    (hg : IsPrefixText g1) (hv : v ≠ []) (hq : 34 ∉ v)
    (hno : NoMatchBefore pre (g1 ++ v ++ tarSuffix ++ post)) :
    patch uni (pre ++ g1 ++ v ++ tarSuffix ++ post) X =
      pre ++ g1 ++ X ++ tarSuffix ++ patch uni post X := by
  have h1 := replaceAllLoop_some uni hX (a := []) hg hv hq hno
    ((pre ++ g1 ++ v ++ tarSuffix ++ post).length + 1) []
  simp only [List.nil_append, List.length_nil] at h1
  have h1' : patch uni (pre ++ g1 ++ v ++ tarSuffix ++ post) X = _ := h1
  rw [h1']
  have h2 := replaceAllLoop_patch uni hX post.length post (le_refl _)
    ((pre ++ g1 ++ v ++ tarSuffix ++ post).length + 1)
    (by simp only [List.length_append]; omega) (pre ++ g1 ++ v ++ tarSuffix)
    (pre ++ g1 ++ X ++ tarSuffix)
  rw [h2]

/-! ## A match that starts before the first one -/

theorem split_unique {q : Nat} {A A' Q Q' : Bytes} (h : A ++ q :: Q = A' ++ q :: Q')
    (hA : q ∉ A) (hA' : q ∉ A') : A = A' ∧ Q = Q' := by
  induction A generalizing A' with
  | nil =>
    cases A' with
    | nil => simpa using h
    | cons b A' =>
      simp only [List.nil_append, List.cons_append, List.cons.injEq] at h
      exact absurd (by simp [h.1]) hA'
  | cons a A ih =>
    cases A' with
    | nil =>
      simp only [List.nil_append, List.cons_append, List.cons.injEq] at h
      exact absurd (by simp [h.1]) hA
    | cons b A' =>
      simp only [List.cons_append, List.cons.injEq] at h
      obtain ⟨rfl, h⟩ := h
      obtain ⟨rfl, rfl⟩ := ih h (fun m => hA (List.mem_cons_of_mem _ m))
        (fun m => hA' (List.mem_cons_of_mem _ m))
      exact ⟨rfl, rfl⟩

theorem align {q : Nat} {L R P G S : Bytes} (h : L ++ q :: R = P ++ G ++ q :: S) (hL : q ∉ L)
    (hG : q ∉ G) : (L = P ++ G ∧ R = S) ∨ (∃ P', P = L ++ q :: P' ∧ R = P' ++ G ++ q :: S) := by
  by_cases hP : q ∈ P
  · obtain ⟨B, P', rfl, hB⟩ := List.eq_append_cons_of_mem hP
    right
    have h' : L ++ q :: R = B ++ q :: (P' ++ G ++ q :: S) := by rw [h]; simp
    obtain ⟨rfl, rfl⟩ := split_unique h' hL hB
    exact ⟨P', rfl, rfl⟩
  · left
    exact split_unique h hL (fun m => (List.mem_append.1 m).elim hP hG)

theorem spaces_no {ws : Bytes} (h : IsSpaces ws) {b : Nat} (hb : isSpaceByte b = false) :
    b ∉ ws := fun m => by
  have := h.2 b m
  rw [hb] at this; cases this

theorem headText_no_quote {gA : Bytes} (h : IsHeadText gA) : 34 ∉ gA := by
  obtain ⟨ws1, ws2, h1, h2, rfl⟩ := h
  have a1 : 34 ∉ kwImport := by decide
  have a2 : 34 ∉ kwFetch := by decide
  have a3 := spaces_no h1 (b := 34) (by decide)
  have a4 := spaces_no h2 (b := 34) (by decide)
  simp [a1, a2, a3, a4]

theorem headText_count {gA : Bytes} (h : IsHeadText gA) : gA.count 105 = 1 := by
  obtain ⟨ws1, ws2, h1, h2, rfl⟩ := h
  have a1 : kwImport.count 105 = 1 := by decide
  have a2 : kwFetch.count 105 = 0 := by decide
  have a3 : ws1.count 105 = 0 := List.count_eq_zero.2 (spaces_no h1 (by decide))
  have a4 : ws2.count 105 = 0 := List.count_eq_zero.2 (spaces_no h2 (by decide))
  simp [List.count_append, a1, a2, a3, a4]

theorem headText_cons {gA : Bytes} (h : IsHeadText gA) : ∃ t, gA = 105 :: t := by
  obtain ⟨ws1, ws2, h1, h2, rfl⟩ := h
  have : kwImport = 105 :: utf8 "mport" := by decide
  rw [this]
  exact ⟨utf8 "mport" ++ ws1 ++ kwFetch ++ ws2, by simp⟩

theorem headText_length {gA : Bytes} (h : IsHeadText gA) : 21 ≤ gA.length := by
  obtain ⟨ws1, ws2, h1, h2, rfl⟩ := h
  have l1 : 0 < ws1.length := List.length_pos.2 h1.1
  have l2 : 0 < ws2.length := List.length_pos.2 h2.1
  simp only [List.length_append, kwImport_length, kwFetch_length]; omega

theorem oneRune_quote {d : Bytes} (h : IsOneRune d) (hq : 34 ∈ d) : d = [34] := by
  obtain ⟨hd, hw⟩ := h
  have hmem : 34 ∈ (d ++ urlTail).take (decodeRune (d ++ urlTail)).2 := by
    rw [hw, List.take_left]; exact hq
  have := rune_take_ascii hmem (by omega)
  rw [this] at hw
  cases d with
  | nil => exact absurd rfl hd
  | cons a d =>
    cases d with
    | nil => simp at hq; simp [hq]
    | cons b d => simp at hw

theorem matchAt_inside_prefix {pre gA Y : Bytes} {s : Nat} {caps : Caps} (hpre : pre ≠ [])
    (hA : IsHeadText gA) (h : matchAt (pre ++ gA ++ 34 :: 104 :: Y) s = some caps) (Z : Bytes) :
    matchAt (pre ++ Z) s = some caps := by
  obtain ⟨h1, w, rest, e, hh1, hw, hwq, rfl⟩ := matchAt_some h
  have hh1' := hh1
  obtain ⟨ws1, ws2, d, hs1, hs2, hd, rfl⟩ := hh1
  have hHead : IsHeadText (kwImport ++ ws1 ++ kwFetch ++ ws2) := ⟨ws1, ws2, hs1, hs2, rfl⟩
  have hsuf : tarSuffix = utf8 ".tar.gz" ++ [34, 41] := by decide
  have q1 : 34 ∉ utf8 "https://github" := by decide
  have q2 : 34 ∉ urlTail := by decide
  have q3 : 34 ∉ utf8 ".tar.gz" := by decide
  have l1 : (utf8 "https://github").length = 14 := by decide
  have qA := headText_no_quote hA
  have qH := headText_no_quote hHead
  obtain ⟨tA, hAcons⟩ := headText_cons hA
  -- the closing step, shared by both cases
  have close : ∀ P, pre = kwImport ++ ws1 ++ kwFetch ++ ws2 ++ urlHead ++ d ++ urlTail ++ w ++
      tarSuffix ++ P → matchAt (pre ++ Z) s = some (capsOf s
        (kwImport ++ ws1 ++ kwFetch ++ ws2 ++ urlHead ++ d ++ urlTail).length w.length) := by
    intro P hP
    rw [hP, List.append_assoc _ P Z]
    exact matchAt_append hh1' hw hwq _ s
  have e' : (kwImport ++ ws1 ++ kwFetch ++ ws2) ++ 34 ::
      (utf8 "https://github" ++ d ++ urlTail ++ w ++ utf8 ".tar.gz" ++ 34 :: 41 :: rest) =
      pre ++ gA ++ 34 :: (104 :: Y) := by
    rw [e, urlHead_eq, hsuf]; simp
  rcases align e' qH qA with ⟨e1, _⟩ | ⟨P1, eP, e2⟩
  · exfalso
    have c1 := headText_count hHead
    rw [e1, List.count_append, headText_count hA] at c1
    obtain ⟨tH, hHcons⟩ := headText_cons hHead
    rw [e1] at hHcons
    cases pre with
    | nil => exact hpre rfl
    | cons b pre =>
      simp only [List.cons_append, List.cons.injEq] at hHcons
      rw [hHcons.1] at c1
      simp at c1
  · by_cases hdq : 34 ∈ d
    · have hd1 := oneRune_quote hd hdq
      subst hd1
      have e3 : utf8 "https://github" ++ 34 :: (urlTail ++ w ++ utf8 ".tar.gz" ++ 34 :: 41 :: rest)
          = P1 ++ gA ++ 34 :: (104 :: Y) := by rw [← e2]; simp
      rcases align e3 q1 qA with ⟨e4, _⟩ | ⟨P2, eP2, e5⟩
      · exfalso
        have := congrArg List.length e4
        have := headText_length hA
        simp only [List.length_append, l1] at *
        omega
      · have e6 : (urlTail ++ w ++ utf8 ".tar.gz") ++ 34 :: (41 :: rest) =
            P2 ++ gA ++ 34 :: (104 :: Y) := by rw [← e5]
        have q4 : 34 ∉ urlTail ++ w ++ utf8 ".tar.gz" := by simp [q2, q3, hwq]
        rcases align e6 q4 qA with ⟨_, e7⟩ | ⟨P3, eP3, e8⟩
        · simp at e7
        · cases P3 with
          | nil =>
            rw [hAcons] at e8; simp at e8
          | cons b P4 =>
            simp only [List.cons_append, List.cons.injEq] at e8
            obtain ⟨rfl, -⟩ := e8
            apply close P4
            rw [eP, eP2, eP3, urlHead_eq, hsuf]; simp
    · have e6 : (utf8 "https://github" ++ d ++ urlTail ++ w ++ utf8 ".tar.gz") ++ 34 :: (41 :: rest) =
          P1 ++ gA ++ 34 :: (104 :: Y) := by rw [← e2]
      have q4 : 34 ∉ utf8 "https://github" ++ d ++ urlTail ++ w ++ utf8 ".tar.gz" := by
        simp [q1, q2, q3, hwq, hdq]
      rcases align e6 q4 qA with ⟨_, e7⟩ | ⟨P3, eP3, e8⟩
      · simp at e7
      · cases P3 with
        | nil =>
          rw [hAcons] at e8; simp at e8
        | cons b P4 =>
          simp only [List.cons_append, List.cons.injEq] at e8
          obtain ⟨rfl, -⟩ := e8
          apply close P4
          rw [eP, eP3, urlHead_eq, hsuf]; simp

/-! ## Pinned revisions and round trips -/

theorem prefixText_split {g1 : Bytes} (hg : IsPrefixText g1) :
    ∃ gA Y, IsHeadText gA ∧ g1 = gA ++ 34 :: 104 :: Y := by
  obtain ⟨ws1, ws2, d, h1, h2, _, rfl⟩ := hg
  have : urlHead = 34 :: 104 :: utf8 "ttps://github" := by decide
  exact ⟨kwImport ++ ws1 ++ kwFetch ++ ws2, utf8 "ttps://github" ++ d ++ urlTail,
    ⟨ws1, ws2, h1, h2, rfl⟩, by rw [this]; simp⟩

theorem noMatchBefore_replace {pre g1 t : Bytes} (hg : IsPrefixText g1)
    (h : NoMatchBefore pre (g1 ++ t)) (t' : Bytes) : NoMatchBefore pre (g1 ++ t') := by
  intro p1 p2 e hne
  cases hm : matchAt (p2 ++ (g1 ++ t')) 0 with
  | none => rfl
  | some caps =>
    exfalso
    obtain ⟨gA, Y, hA, rfl⟩ := prefixText_split hg
    have e1 : p2 ++ (gA ++ 34 :: 104 :: Y ++ t') = p2 ++ gA ++ 34 :: 104 :: (Y ++ t') := by simp
    rw [e1] at hm
    have := matchAt_inside_prefix hne hA hm (gA ++ 34 :: 104 :: Y ++ t)
    rw [h p1 p2 e hne] at this
    cases this

theorem drop_matchEnd {pre g1 v post : Bytes} :
    (pre ++ g1 ++ v ++ tarSuffix ++ post).drop (matchEnd (capsOf pre.length g1.length v.length)) =
      post := by
  have : matchEnd (capsOf pre.length g1.length v.length) = (pre ++ g1 ++ v ++ tarSuffix).length := by
    simp [matchEnd_capsOf, tarSuffix_length]; omega
  rw [this, List.drop_left]

theorem pinnedLoop_fuel : ∀ (n : Nat) (c : Bytes), c.length ≤ n → ∀ f f', c.length < f →
    c.length < f' → pinnedLoop f c = pinnedLoop f' c := by
  intro n
  induction n with
  | zero =>
    intro c hc f f' hf hf'
    have hc' : c = [] := List.eq_nil_of_length_eq_zero (by omega)
    subst hc'
    have hnone : doExecute [] 0 = none := matchAt_nil 0
    cases f with
    | zero => simp at hf
    | succ f =>
      cases f' with
      | zero => simp at hf'
      | succ f' => simp [pinnedLoop, hnone]
  | succ n ih =>
    intro c hc f f' hf hf'
    cases f with
    | zero => omega
    | succ f =>
      cases f' with
      | zero => omega
      | succ f' =>
        cases hd : doExecute c 0 with
        | none => simp [pinnedLoop, hd]
        | some caps =>
          obtain ⟨pre, g1, v, post, rfl, hg, hv, hq, hno, rfl⟩ := doExecute_zero_some hd
          simp only [pinnedLoop, hd, drop_matchEnd]
          have hlen : post.length < (pre ++ g1 ++ v ++ tarSuffix ++ post).length := by
            simp only [List.length_append, tarSuffix_length]; omega
          rw [ih post (by omega) f f' (by omega) (by omega)]

theorem pinnedRevisions_none {c : Bytes} (h : doExecute c 0 = none) : pinnedRevisions c = [] := by
  simp [pinnedRevisions, pinnedLoop, h]

theorem pinnedRevisions_first {pre g1 v post : Bytes} (hg : IsPrefixText g1) (hv : v ≠ [])
    (hq : 34 ∉ v) (hno : NoMatchBefore pre (g1 ++ v ++ tarSuffix ++ post)) :
    pinnedRevisions (pre ++ g1 ++ v ++ tarSuffix ++ post) = v :: pinnedRevisions post := by
  have hd := doExecute_zero_of_shape hg hv hq hno
  have hlen : post.length < (pre ++ g1 ++ v ++ tarSuffix ++ post).length := by
    simp only [List.length_append, tarSuffix_length]; omega
  have g2 : groupText (pre ++ g1 ++ v ++ tarSuffix ++ post)
      (capsOf pre.length g1.length v.length) 2 = v := by
    have e : pre ++ g1 ++ v ++ tarSuffix ++ post = pre ++ g1 ++ v ++ (tarSuffix ++ post) := by simp
    rw [e]; exact groupText_two
  rw [pinnedRevisions, pinnedLoop]
  simp only [hd, drop_matchEnd, g2]
  rw [pinnedRevisions, pinnedLoop_fuel post.length post (le_refl _) _ (post.length + 1) hlen
    (by omega)]

/-- Substituting the revision every match already holds changes nothing. -/
theorem patch_same (uni : Nat → Bool) {X : Bytes} (hX : 36 ∉ X) :
    ∀ (n : Nat) (c : Bytes), c.length ≤ n → (∀ r ∈ pinnedRevisions c, r = X) →
      patch uni c X = c := by
  intro n
  induction n with
  | zero =>
    intro c hc _
    have hc' : c = [] := List.eq_nil_of_length_eq_zero (by omega)
    subst hc'
    exact patch_none uni (show doExecute [] 0 = none from matchAt_nil 0) X
  | succ n ih =>
    intro c hc hall
    cases hd : doExecute c 0 with
    | none => exact patch_none uni hd X
    | some caps =>
      obtain ⟨pre, g1, v, post, rfl, hg, hv, hq, hno, rfl⟩ := doExecute_zero_some hd
      rw [pinnedRevisions_first hg hv hq hno] at hall
      have hvX : v = X := hall v (List.mem_cons_self _ _)
      have hlen : post.length ≤ n := by
        simp only [List.length_append, tarSuffix_length] at hc; omega
      rw [patch_first uni hX hg hv hq hno,
        ih post hlen (fun r hr => hall r (List.mem_cons_of_mem _ hr)), hvX]

theorem findStringSubmatch_shape {pre g1 v post : Bytes} (hg : IsPrefixText g1) (hv : v ≠ [])
    (hq : 34 ∉ v) (hno : NoMatchBefore pre (g1 ++ v ++ tarSuffix ++ post)) :
    findStringSubmatch (pre ++ g1 ++ v ++ tarSuffix ++ post) =
      some [g1 ++ v ++ tarSuffix, g1, v, tarSuffix] := by
  have hd := doExecute_zero_of_shape hg hv hq hno
  have g0 : groupText (pre ++ g1 ++ v ++ tarSuffix ++ post)
      (capsOf pre.length g1.length v.length) 0 = g1 ++ v ++ tarSuffix := by
    simp only [groupText, capsOf, List.getD_cons_zero]
    have e : pre ++ g1 ++ v ++ tarSuffix ++ post = pre ++ (g1 ++ v ++ tarSuffix) ++ post := by simp
    rw [e]; exact slice_mid _ _ _ rfl (by simp [tarSuffix_length]; omega)
  have g1e : groupText (pre ++ g1 ++ v ++ tarSuffix ++ post)
      (capsOf pre.length g1.length v.length) 1 = g1 := by
    have e : pre ++ g1 ++ v ++ tarSuffix ++ post = pre ++ g1 ++ (v ++ tarSuffix ++ post) := by simp
    rw [e]; exact groupText_one _
  have g2 : groupText (pre ++ g1 ++ v ++ tarSuffix ++ post)
      (capsOf pre.length g1.length v.length) 2 = v := by
    have e : pre ++ g1 ++ v ++ tarSuffix ++ post = pre ++ g1 ++ v ++ (tarSuffix ++ post) := by simp
    rw [e]; exact groupText_two
  have g3 := @groupText_three pre g1 v post
  have hr : List.range numGroups = [0, 1, 2, 3] := by decide
  rw [findStringSubmatch, hd, Option.map_some', hr]
  simp only [List.map, g0, g1e, g2, g3]

theorem currentVersion_shape {pre g1 v post : Bytes} (hg : IsPrefixText g1) (hv : v ≠ [])
    (hq : 34 ∉ v) (hno : NoMatchBefore pre (g1 ++ v ++ tarSuffix ++ post)) :
    currentVersion (pre ++ g1 ++ v ++ tarSuffix ++ post) = .ret v := by
  rw [currentVersion, findStringSubmatch_shape hg hv hq hno]
  rfl

/-- Patching a content that has a match and extracting again gives the new revision. -/
theorem currentVersion_patch (uni : Nat → Bool) {c : Bytes} {caps : Caps}
    (hc : doExecute c 0 = some caps) {X : Bytes} (hne : X ≠ []) (hq : 34 ∉ X) (hd : 36 ∉ X) :
    currentVersion (patch uni c X) = .ret X := by
  obtain ⟨pre, g1, v, post, rfl, hg, hv, hvq, hno, rfl⟩ := doExecute_zero_some hc
  rw [patch_first uni hd hg hv hvq hno]
  apply currentVersion_shape hg hne hq
  have e1 : g1 ++ v ++ tarSuffix ++ post = g1 ++ (v ++ tarSuffix ++ post) := by simp
  have e2 : g1 ++ X ++ tarSuffix ++ patch uni post X = g1 ++ (X ++ tarSuffix ++ patch uni post X) := by
    simp
  rw [e1] at hno
  rw [e2]
  exact noMatchBefore_replace hg hno _

/-! ## Adequacy of the fuel -/

/-- The repetition loop does not depend on its fuel once the fuel exceeds the
length of the input. -/
theorem plusLoop_fuel (c : CharClass) (greedy : Bool) (k : Cont) :
    ∀ (f f' : Nat) (inp : Bytes) (pos : Nat) (caps : Caps), inp.length < f → inp.length < f' →
      plusLoop c greedy k f inp pos caps = plusLoop c greedy k f' inp pos caps := by
  intro f
  induction f with
  | zero => intro f' inp pos caps h; omega
  | succ f ih =>
    intro f' inp pos caps h h'
    cases f' with
    | zero => omega
    | succ f' =>
      cases inp with
      | nil => rfl
      | cons b rest =>
        have hpos := decodeRune_width_pos b rest
        have hlen : ((b :: rest).drop (decodeRune (b :: rest)).2).length < f := by
          rw [List.length_drop]; simp only [List.length_cons] at h ⊢; omega
        have hlen' : ((b :: rest).drop (decodeRune (b :: rest)).2).length < f' := by
          rw [List.length_drop]; simp only [List.length_cons] at h' ⊢; omega
        simp only [plusLoop]
        rw [ih f' _ _ caps hlen hlen']

/-- The scanning loop of `extract` does not depend on its fuel once the fuel
reaches the length of the text. -/
theorem nameLen_fuel (uni : Nat → Bool) :
    ∀ (f f' : Nat) (str : Bytes), str.length ≤ f → str.length ≤ f' →
      nameLen uni f str = nameLen uni f' str := by
  intro f
  induction f with
  | zero =>
    intro f' str h _
    have : str = [] := List.eq_nil_of_length_eq_zero (by omega)
    subst this
    cases f' <;> rfl
  | succ f ih =>
    intro f' str h h'
    cases str with
    | nil => cases f' <;> rfl
    | cons b rest =>
      cases f' with
      | zero => simp at h'
      | succ f' =>
        have hpos := decodeRune_width_pos b rest
        have hlen : ((b :: rest).drop (decodeRune (b :: rest)).2).length ≤ f := by
          rw [List.length_drop]; simp only [List.length_cons] at h ⊢; omega
        have hlen' : ((b :: rest).drop (decodeRune (b :: rest)).2).length ≤ f' := by
          rw [List.length_drop]; simp only [List.length_cons] at h' ⊢; omega
        simp only [nameLen]
        rw [ih f' _ hlen hlen']

theorem cutDollar_length {t before after : Bytes} (h : cutDollar t = some (before, after)) :
    after.length < t.length := by
  induction t generalizing before after with
  | nil => simp [cutDollar] at h
  | cons b t ih =>
    simp only [cutDollar] at h
    split_ifs at h with hb
    · simp only [Option.some.injEq, Prod.mk.injEq] at h
      rw [← h.2]; simp
    · simp only [Option.map_eq_some'] at h
      obtain ⟨⟨b1, a1⟩, h1, h2⟩ := h
      simp only [Prod.mk.injEq] at h2
      have := ih h1
      rw [← h2.2]; simp only [List.length_cons]; omega

theorem extract_length {uni : Nat → Bool} {str name rest : Bytes} {num : Option Nat}
    (h : extract uni str = some (name, num, rest)) : rest.length ≤ str.length := by
  cases str with
  | nil => simp [extract] at h
  | cons c tl =>
    simp only [extract] at h
    split_ifs at h <;> simp only [Option.some.injEq, Prod.mk.injEq] at h <;>
      (obtain ⟨_, _, rfl⟩ := h; simp only [List.length_drop, List.length_cons]; omega)

/-- The loop of `expand` does not depend on its fuel once the fuel exceeds the
length of the template. -/
theorem expandLoop_fuel (uni : Nat → Bool) (src : Bytes) (caps : Caps) :
    ∀ (f f' : Nat) (dst template : Bytes), template.length < f → template.length < f' →
      expandLoop uni src caps f dst template = expandLoop uni src caps f' dst template := by
  intro f
  induction f with
  | zero => intro f' dst template h; omega
  | succ f ih =>
    intro f' dst template h h'
    cases f' with
    | zero => omega
    | succ f' =>
      simp only [expandLoop]
      cases hc : cutDollar template with
      | none => rfl
      | some ba =>
        obtain ⟨before, after⟩ := ba
        have hlt := cutDollar_length hc
        simp only
        split
        · rename_i rest
          exact ih f' _ _ (by simp only [List.length_cons] at hlt; omega)
            (by simp only [List.length_cons] at hlt; omega)
        · cases he : extract uni after with
          | none => exact ih f' _ _ (by omega) (by omega)
          | some r =>
            obtain ⟨name, num, rest⟩ := r
            have hle := extract_length he
            simp only
            cases num with
            | none => exact ih f' _ _ (by omega) (by omega)
            | some n =>
              simp only
              split_ifs
              · exact ih f' _ _ (by omega) (by omega)
              · exact ih f' _ _ (by omega) (by omega)

theorem doExecute_matchEnd {src : Bytes} {pos : Nat} {a : Caps} (h : doExecute src pos = some a) :
    pos < matchEnd a := by
  simp only [doExecute] at h
  obtain ⟨pre, rest, _, _, hm⟩ := findFrom_some h
  obtain ⟨g1, v, post, _, _, _, _, rfl⟩ := matchAt_some hm
  rw [matchEnd_capsOf]; omega

/-- The loop of `replaceAll` does not depend on its fuel once the fuel exceeds
the number of bytes left to search by one, whatever the replacement. -/
theorem replaceAllLoop_fuel (src : Bytes) (repl : Bytes → Caps → Bytes) :
    ∀ (f f' lastMatchEnd searchPos : Nat) (buf : Bytes),
      src.length + 1 - searchPos < f → src.length + 1 - searchPos < f' →
      replaceAllLoop src repl f lastMatchEnd searchPos buf =
        replaceAllLoop src repl f' lastMatchEnd searchPos buf := by
  intro f
  induction f with
  | zero => intro f' l s buf h; omega
  | succ f ih =>
    intro f' l s buf h h'
    cases f' with
    | zero => omega
    | succ f' =>
      simp only [replaceAllLoop]
      split_ifs with hs
      · cases hd : doExecute src s with
        | none => rfl
        | some a =>
          have hme := doExecute_matchEnd hd
          simp only
          apply ih
          · split_ifs <;> omega
          · split_ifs <;> omega
      · rfl

/-! ## The claims -/

/-! ### Claim C1 -/

/-- Claim C1, evaluated on the code: whenever `json.Unmarshal` rejects the
body, `getLastVersion` returns the empty string with a nil error, as it does
when the decoded struct has an empty `Sha` (a JSON object without the field
`commit.sha`); with an HTML error page as body, the run `bump` on a file that
pins `abc123` exits with code 0 after writing the file with an empty revision,
and so it does with the body `{}`. -/
theorem getLastVersion_returns_nil_on_decode_error (uni : Nat → Bool) (build : Build) :
    (∀ (fs : FileSystem) (body : Bytes) (e : GoError) (trace : List Event),
      (getLastVersion { fs := fs, fetch := .decodeError body e, trace := trace }).1 = ([], none)) ∧
    (∀ (fs : FileSystem) (body : Bytes) (trace : List Event),
      (getLastVersion { fs := fs, fetch := .decoded body [], trace := trace }).1 = ([], none)) ∧
    (main uni build ["bump"] (scenario "default.nix" (pinnedLine "abc123") badGateway)).1 = .code 0 ∧
    (main uni build ["bump"] (scenario "default.nix" (pinnedLine "abc123") badGateway)).2.trace =
      [.stat "default.nix", .httpGet branchUrl, .readFile "default.nix",
        .writeFile "default.nix" (pinnedLine "")] ∧
    (main uni build ["bump"] (scenario "default.nix" (pinnedLine "abc123") badGateway)).2.fs
        "default.nix" = .file (pinnedLine "") true true ∧
    (main uni build ["bump"] (scenario "default.nix" (pinnedLine "abc123") emptyObject)).1 = .code 0 ∧
    (main uni build ["bump"] (scenario "default.nix" (pinnedLine "abc123") emptyObject)).2.fs
        "default.nix" = .file (pinnedLine "") true true :=
  ⟨fun _ _ _ _ => rfl, fun _ _ _ => rfl, rfl, rfl, rfl, rfl, rfl⟩

/-! ### Claim C2 -/

/-- Claim C2 fails as stated: for a file that pins `abc123` and then
`def456` the extractor returns `abc123`, and substituting it rewrites the
second revision too; and for a file that pins `a$b` the substitution expands
`$b` as a template reference and writes `a`. -/
theorem extract_then_patch_not_identity :
    (currentVersion (pinnedLine "abc123" ++ [10] ++ pinnedLine "def456") = .ret (utf8 "abc123") ∧
      ∀ uni, patch uni (pinnedLine "abc123" ++ [10] ++ pinnedLine "def456") (utf8 "abc123") ≠
        pinnedLine "abc123" ++ [10] ++ pinnedLine "def456") ∧
    (currentVersion (pinnedLine "a$b") = .ret (utf8 "a$b") ∧
      ∀ uni, patch uni (pinnedLine "a$b") (utf8 "a$b") ≠ pinnedLine "a$b") := by
  refine ⟨⟨by decide, fun uni h => ?_⟩, ⟨by decide, fun uni h => ?_⟩⟩
  · have e : patch uni (pinnedLine "abc123" ++ [10] ++ pinnedLine "def456") (utf8 "abc123") =
        pinnedLine "abc123" ++ [10] ++ pinnedLine "abc123" := rfl
    rw [e] at h
    exact absurd h (by decide)
  · have e : patch uni (pinnedLine "a$b") (utf8 "a$b") = pinnedLine "a" := rfl
    rw [e] at h
    exact absurd h (by decide)

/-- Claim C2 as amended: for every content from which the extractor returns
`v`, if every revision pinned in the content equals `v` and `v` contains no
dollar sign, substituting `v` back gives the content unchanged. -/
theorem extract_then_patch_roundtrip (uni : Nat → Bool) (content v : Bytes)
    (_hv : currentVersion content = .ret v)
    (hall : ∀ r ∈ pinnedRevisions content, r = v) (hd : 36 ∉ v) :
    patch uni content v = content :=
  patch_same uni hd content.length content (le_refl _) hall

/-- Witness of claim C2: the documented line pinning `abc123`. -/
theorem extract_then_patch_roundtrip_witness :
    patch noUnicode (pinnedLine "abc123") (utf8 "abc123") = pinnedLine "abc123" :=
  extract_then_patch_roundtrip noUnicode (pinnedLine "abc123") (utf8 "abc123") (by decide)
    (by decide) (by decide)

/-! ### Claim C3 -/

/-- Claim C3 fails as stated: none of the empty string, `a"b` and `$2`
contains the terminator `.tar.gz")`, yet after substituting any of them in
the line pinning `abc123` the extractor does not return it (the pattern no
longer matches for the first two; `$2` expands to the old revision). -/
theorem patch_then_extract_not_identity :
    (¬ tarSuffix <:+: ([] : Bytes) ∧
      ∀ uni, currentVersion (patch uni (pinnedLine "abc123") []) ≠ .ret []) ∧
    (¬ tarSuffix <:+: utf8 "a\"b" ∧
      ∀ uni, currentVersion (patch uni (pinnedLine "abc123") (utf8 "a\"b")) ≠ .ret (utf8 "a\"b")) ∧
    (¬ tarSuffix <:+: utf8 "$2" ∧
      ∀ uni, currentVersion (patch uni (pinnedLine "abc123") (utf8 "$2")) ≠ .ret (utf8 "$2")) := by
  refine ⟨⟨by decide, fun uni h => ?_⟩, ⟨by decide, fun uni h => ?_⟩, ⟨by decide, fun uni h => ?_⟩⟩
  · have e : patch uni (pinnedLine "abc123") [] = pinnedLine "" := rfl
    rw [e] at h
    exact absurd h (by decide)
  · have e : patch uni (pinnedLine "abc123") (utf8 "a\"b") = pinnedLine "a\"b" := rfl
    rw [e] at h
    exact absurd h (by decide)
  · have e : patch uni (pinnedLine "abc123") (utf8 "$2") = pinnedLine "abc123" := rfl
    rw [e] at h
    exact absurd h (by decide)

/-- Claim C3 as amended: for every content with a match of `re` and every
non-empty `X` that contains neither a double quote nor a dollar sign, the
extractor applied to the content substituted with `X` returns `X`. -/
theorem patch_then_extract_roundtrip (uni : Nat → Bool) (content X : Bytes)
    (hmatch : doExecute content 0 ≠ none) (hne : X ≠ []) (hq : 34 ∉ X) (hd : 36 ∉ X) :
    currentVersion (patch uni content X) = .ret X := by
  cases h : doExecute content 0 with
  | none => exact absurd h hmatch
  | some caps => exact currentVersion_patch uni h hne hq hd

/-- Witness of claim C3: the line pinning `abc123`, substituted with
`def456`. -/
theorem patch_then_extract_roundtrip_witness :
    currentVersion (patch noUnicode (pinnedLine "abc123") (utf8 "def456")) = .ret (utf8 "def456") :=
  patch_then_extract_roundtrip noUnicode (pinnedLine "abc123") (utf8 "def456") (by decide)
    (by decide) (by decide) (by decide)

/-! ### Claim C4 -/

theorem hex_no_dollar {X : Bytes} (h : IsHex X) : 36 ∉ X := fun m => by
  have := h 36 m
  simp [isHexByte] at this

theorem hex_no_quote {X : Bytes} (h : IsHex X) : 34 ∉ X := fun m => by
  have := h 34 m
  simp [isHexByte] at this

theorem append4_inj {a b c d e a' b' c' d' e' : Bytes}
    (h : a ++ b ++ c ++ d ++ e = a' ++ b' ++ c' ++ d' ++ e') (ha : a.length = a'.length)
    (hb : b.length = b'.length) (hc : c.length = c'.length) (hd : d.length = d'.length) :
    a = a' ∧ b = b' ∧ c = c' ∧ d = d' ∧ e = e' := by
  simp only [List.append_assoc] at h
  obtain ⟨e1, h1⟩ := List.append_inj h ha
  obtain ⟨e2, h2⟩ := List.append_inj h1 hb
  obtain ⟨e3, h3⟩ := List.append_inj h2 hc
  obtain ⟨e4, h4⟩ := List.append_inj h3 hd
  exact ⟨e1, e2, e3, e4, h4⟩

/-- The shape of a content whose leftmost match has the given groups. -/
theorem shape_of_groups {pre g1 v g3 post : Bytes}
    (hfirst : doExecute (pre ++ g1 ++ v ++ g3 ++ post) 0 =
      some [some (pre.length, pre.length + g1.length + v.length + g3.length),
        some (pre.length, pre.length + g1.length),
        some (pre.length + g1.length, pre.length + g1.length + v.length),
        some (pre.length + g1.length + v.length,
          pre.length + g1.length + v.length + g3.length)]) :
    g3 = tarSuffix ∧ IsPrefixText g1 ∧ v ≠ [] ∧ 34 ∉ v ∧
      NoMatchBefore pre (g1 ++ v ++ tarSuffix ++ post) := by
  obtain ⟨pre', g1', v', post', e, hg, hv, hq, hno, hc⟩ := doExecute_zero_some hfirst
  simp only [capsOf, List.cons.injEq, Option.some.injEq, Prod.mk.injEq, and_true] at hc
  obtain ⟨⟨h1, h2⟩, ⟨_, h3⟩, ⟨_, h4⟩, _, _⟩ := hc
  obtain ⟨rfl, rfl, rfl, rfl, rfl⟩ := append4_inj e h1 (by omega) (by omega)
    (by rw [tarSuffix_length]; omega)
  exact ⟨rfl, hg, hv, hq, hno⟩

theorem doExecute_after_none {a post : Bytes} (h : doExecute (a ++ post) a.length = none) :
    doExecute post 0 = none := by
  simp only [doExecute, List.drop_left, List.drop_zero] at h ⊢
  exact findFrom_none_start h 0

theorem bump_of_file (uni : Nat → Bool) {w : World} {path : String} {content : Bytes}
    {wr : Bool} (h : w.fs path = .file content true wr) (last : Bytes) :
    bump uni path last w =
      if content = patch uni content last then (none, w.emit (.readFile path))
      else if wr then
        (none, { w with
          fs := fun p => if p = path then .file (patch uni content last) true wr else w.fs p,
          trace := w.trace ++ [.readFile path, .writeFile path (patch uni content last)] })
      else (some (.other "permission denied"), { w with
          trace := w.trace ++ [.readFile path, .writeFile path (patch uni content last)] }) := by
  simp only [bump, osReadFile, h, if_true, osWriteFile, World.emit, patch]
  split_ifs <;> simp

/-- Claim C4: for every content `pre ++ g1 ++ v ++ g3 ++ post` whose leftmost
match of `re` has `g1`, `v`, `g3` as groups 1, 2, 3 and which has no match
after it, and every non-empty hexadecimal `X`, the content `bump` computes is
`pre ++ g1 ++ X ++ g3 ++ post`; on a readable, writable file with that content
`bump` returns nil and leaves exactly this content in the file. -/
theorem bump_replaces_only_captured_revision (uni : Nat → Bool) (pre g1 v g3 post X : Bytes)
    (hfirst : doExecute (pre ++ g1 ++ v ++ g3 ++ post) 0 =
      some [some (pre.length, pre.length + g1.length + v.length + g3.length),
        some (pre.length, pre.length + g1.length),
        some (pre.length + g1.length, pre.length + g1.length + v.length),
        some (pre.length + g1.length + v.length,
          pre.length + g1.length + v.length + g3.length)])
    (honly : doExecute (pre ++ g1 ++ v ++ g3 ++ post)
      (pre.length + g1.length + v.length + g3.length) = none)
    (_hne : X ≠ []) (hhex : IsHex X) :
    patch uni (pre ++ g1 ++ v ++ g3 ++ post) X = pre ++ g1 ++ X ++ g3 ++ post ∧
    ∀ (w : World) (path : String), w.fs path = .file (pre ++ g1 ++ v ++ g3 ++ post) true true →
      (bump uni path X w).1 = none ∧
      (bump uni path X w).2.fs path = .file (pre ++ g1 ++ X ++ g3 ++ post) true true := by
  obtain ⟨rfl, hg, hv, hq, hno⟩ := shape_of_groups hfirst
  have hpost : doExecute post 0 = none := by
    apply doExecute_after_none (a := pre ++ g1 ++ v ++ tarSuffix)
    rw [← honly]; congr 1; simp only [List.length_append]
  have hp : patch uni (pre ++ g1 ++ v ++ tarSuffix ++ post) X =
      pre ++ g1 ++ X ++ tarSuffix ++ post := by
    rw [patch_first uni (hex_no_dollar hhex) hg hv hq hno, patch_none uni hpost]
  refine ⟨hp, fun w path hf => ?_⟩
  rw [bump_of_file uni hf, hp]
  by_cases h1 : pre ++ g1 ++ v ++ tarSuffix ++ post = pre ++ g1 ++ X ++ tarSuffix ++ post
  · rw [if_pos h1]; rw [h1] at hf; exact ⟨rfl, hf⟩
  · rw [if_neg h1]; simp

/-- Witness of claim C4: the documented line pinning `abc123` has extracted
version `abc123`, and substituting `def456` gives the line pinning `def456`. -/
theorem bump_replaces_only_captured_revision_witness :
    currentVersion (pinnedLine "abc123") = .ret (utf8 "abc123") ∧
      patch noUnicode (pinnedLine "abc123") (utf8 "def456") = pinnedLine "def456" := by
  refine ⟨by decide, ?_⟩
  have h := (bump_replaces_only_captured_revision noUnicode []
    (utf8 "import (fetchTarball \"https://github.com/NixOS/nixpkgs/archive/") (utf8 "abc123")
    (utf8 ".tar.gz\")") [] (utf8 "def456") (by decide) (by decide) (by decide)
    (by unfold IsHex; decide)).1
  have e1 : pinnedLine "abc123" = [] ++
      utf8 "import (fetchTarball \"https://github.com/NixOS/nixpkgs/archive/" ++ utf8 "abc123" ++
      utf8 ".tar.gz\")" ++ [] := by decide
  have e2 : pinnedLine "def456" = [] ++
      utf8 "import (fetchTarball \"https://github.com/NixOS/nixpkgs/archive/" ++ utf8 "def456" ++
      utf8 ".tar.gz\")" ++ [] := by decide
  rw [e1, e2]; exact h

/-! ### Claim C5 -/

/-- Claim C5: over a world where `path` is a readable file, `bump` calls
`os.WriteFile` if and only if the substituted content differs from the
original; when it differs the call is made with the substituted content, and
if the call succeeds the file holds exactly that content and every other path
is as before; and for a hexadecimal `X` that every pinned revision of the file
already equals, `bump` returns nil having only read the file: no write, the
file system unchanged. -/
theorem bump_writes_iff_content_changes (uni : Nat → Bool) (w : World) (path : String)
    (content last : Bytes) (wr : Bool) (hfile : w.fs path = .file content true wr) :
    ((∃ data, Event.writeFile path data ∈ (bump uni path last w).2.trace.drop w.trace.length) ↔
        patch uni content last ≠ content) ∧
    (patch uni content last ≠ content →
        (bump uni path last w).2.trace =
          w.trace ++ [.readFile path, .writeFile path (patch uni content last)] ∧
        ((bump uni path last w).1 = none →
          (bump uni path last w).2.fs path = .file (patch uni content last) true wr ∧
          ∀ p, p ≠ path → (bump uni path last w).2.fs p = w.fs p)) ∧
    (∀ X : Bytes, IsHex X → (∀ r ∈ pinnedRevisions content, r = X) →
        bump uni path X w = (none, { w with trace := w.trace ++ [.readFile path] })) := by
  refine ⟨?_, ?_, ?_⟩
  · rw [bump_of_file uni hfile]
    by_cases h : content = patch uni content last
    · rw [if_pos h]
      simp only [World.emit, List.drop_left, List.mem_singleton]
      constructor
      · rintro ⟨d, hd⟩; cases hd
      · intro hne; exact absurd h.symm hne
    · rw [if_neg h]
      constructor
      · intro _ e; exact h e.symm
      · intro _
        refine ⟨patch uni content last, ?_⟩
        cases wr <;> simp
  · intro hne
    have h : ¬ content = patch uni content last := fun e => hne e.symm
    rw [bump_of_file uni hfile, if_neg h]
    cases wr
    · simp
    · simp only [if_true, true_and]
      intro _ p hp
      simp [hp]
  · intro X hX hall
    have hsame : patch uni content X = content :=
      patch_same uni (hex_no_dollar hX) content.length content (le_refl _) hall
    rw [bump_of_file uni hfile, if_pos hsame.symm]
    rfl

/-- Witness of claim C5: `default.nix` pinned to `def456`, latest `def456`:
the only effect is reading the file. -/
theorem bump_writes_iff_content_changes_witness :
    bump noUnicode "default.nix" (utf8 "def456")
        (scenario "default.nix" (pinnedLine "def456") headDef456) =
      (none, { scenario "default.nix" (pinnedLine "def456") headDef456 with
        trace := [.readFile "default.nix"] }) :=
  (bump_writes_iff_content_changes noUnicode
    (scenario "default.nix" (pinnedLine "def456") headDef456) "default.nix"
    (pinnedLine "def456") (utf8 "def456") true rfl).2.2 (utf8 "def456")
    (by unfold IsHex; decide) (by decide)

/-! ### Claim C6 -/

theorem parseFlags_detect (formal : List String) (rest : List String) :
    parseFlags formal ("detect" :: rest) [] = .done [] := rfl

theorem parseFlags_bump (formal : List String) (rest : List String) :
    parseFlags formal ("bump" :: rest) [] = .done [] := rfl

theorem getTargetPath_default {w : World} {c : Bytes} {r wr : Bool}
    (h : w.fs "default.nix" = .file c r wr) :
    getTargetPath w = (("default.nix", none), w.emit (.stat "default.nix")) := by
  simp [getTargetPath, paths, getTargetPathLoop, osStat, h]

theorem getTargetPath_shell {w : World} {c : Bytes} {r wr : Bool}
    (h0 : w.fs "default.nix" = .absent) (h : w.fs "shell.nix" = .file c r wr) :
    getTargetPath w =
      (("shell.nix", none), (w.emit (.stat "default.nix")).emit (.stat "shell.nix")) := by
  simp [getTargetPath, paths, getTargetPathLoop, osStat, h0, h, isNotExist, World.emit]

/-- Claim C6: `getTargetPath` returns `default.nix` with a nil error
whenever `default.nix` exists, whatever `shell.nix` is; when `default.nix`
does not exist and `shell.nix` exists it returns `shell.nix` with a nil
error, and the run `detect -target` then checks the two names in that order,
prints `shell.nix` and exits with code 0. -/
theorem getTargetPath_first_existing (uni : Nat → Bool) (build : Build) (w : World) :
    (∀ c r wr, w.fs "default.nix" = .file c r wr →
        (getTargetPath w).1 = ("default.nix", none)) ∧
    (∀ c r wr, w.fs "default.nix" = .absent → w.fs "shell.nix" = .file c r wr →
        (getTargetPath w).1 = ("shell.nix", none) ∧
        main uni build ["detect", "-target"] w =
          (.code 0, { w with trace := w.trace ++
            [.stat "default.nix", .stat "shell.nix", .stdout (utf8 "shell.nix\n")] })) := by
  refine ⟨fun c r wr h => by rw [getTargetPath_default h], fun c r wr h0 h => ⟨?_, ?_⟩⟩
  · rw [getTargetPath_shell h0 h]
  · have hp : parseFlags ["version"] ["detect", "-target"] [] = .done [] := rfl
    have hd : parseFlags ["current", "last", "target"] ["-target"] [] = .done [("target", true)] :=
      rfl
    have hnl : utf8 "shell.nix" ++ [10] = utf8 "shell.nix\n" := by decide
    simp only [main, hp, flagValue, List.find?, getTargetPath_shell h0 h, runDetect, hd]
    simp [println, World.emit, hnl]

/-- Witness of claim C6: with only `shell.nix` present, `detect -target`
prints `shell.nix` after checking `default.nix` and `shell.nix`. -/
theorem getTargetPath_first_existing_witness :
    main noUnicode defaultBuild ["detect", "-target"]
        (scenario "shell.nix" (pinnedLine "abc123") headDef456) =
      (.code 0, { scenario "shell.nix" (pinnedLine "abc123") headDef456 with
        trace := [.stat "default.nix", .stat "shell.nix", .stdout (utf8 "shell.nix\n")] }) :=
  ((getTargetPath_first_existing noUnicode defaultBuild
    (scenario "shell.nix" (pinnedLine "abc123") headDef456)).2
      (pinnedLine "abc123") true true rfl rfl).2

/-! ### Claim C7 -/

theorem getTargetPath_cases (w : World) :
    (∃ c r wr, w.fs "default.nix" = .file c r wr) ∨ (∃ m, w.fs "default.nix" = .blocked m) ∨
    (w.fs "default.nix" = .absent ∧
      ((∃ c r wr, w.fs "shell.nix" = .file c r wr) ∨ (∃ m, w.fs "shell.nix" = .blocked m) ∨
        w.fs "shell.nix" = .absent)) := by
  cases h : w.fs "default.nix" with
  | file c r wr => exact Or.inl ⟨c, r, wr, rfl⟩
  | blocked m => exact Or.inr (Or.inl ⟨m, rfl⟩)
  | absent =>
    refine Or.inr (Or.inr ⟨rfl, ?_⟩)
    cases h2 : w.fs "shell.nix" with
    | file c r wr => exact Or.inl ⟨c, r, wr, rfl⟩
    | blocked m => exact Or.inr (Or.inl ⟨m, rfl⟩)
    | absent => exact Or.inr (Or.inr rfl)

theorem getTargetPath_blocked_default {w : World} {m : String}
    (h : w.fs "default.nix" = .blocked m) :
    getTargetPath w =
      (("", some (.canNotOpen "default.nix" (.other m))), w.emit (.stat "default.nix")) := by
  simp [getTargetPath, paths, getTargetPathLoop, osStat, h, isNotExist]

theorem getTargetPath_blocked_shell {w : World} {m : String}
    (h0 : w.fs "default.nix" = .absent) (h : w.fs "shell.nix" = .blocked m) :
    getTargetPath w = (("", some (.canNotOpen "shell.nix" (.other m))),
      (w.emit (.stat "default.nix")).emit (.stat "shell.nix")) := by
  simp [getTargetPath, paths, getTargetPathLoop, osStat, h0, h, isNotExist, World.emit]

theorem getTargetPath_absent {w : World}
    (h0 : w.fs "default.nix" = .absent) (h : w.fs "shell.nix" = .absent) :
    getTargetPath w = (("", some (.notFound paths)),
      (w.emit (.stat "default.nix")).emit (.stat "shell.nix")) := by
  simp [getTargetPath, paths, getTargetPathLoop, osStat, h0, h, isNotExist, World.emit]

/-- What `getTargetPath` does to the world: only `os.Stat` calls. -/
theorem getTargetPath_world (w : World) :
    (getTargetPath w).2.fs = w.fs ∧ (getTargetPath w).2.fetch = w.fetch ∧
      ∃ evs, (getTargetPath w).2.trace = w.trace ++ evs ∧
        ∀ ev ∈ evs, ev = .stat "default.nix" ∨ ev = .stat "shell.nix" := by
  rcases getTargetPath_cases w with ⟨c, r, wr, h⟩ | ⟨m, h⟩ | ⟨h0, ⟨c, r, wr, h⟩ | ⟨m, h⟩ | h⟩
  · rw [getTargetPath_default h]; exact ⟨rfl, rfl, [.stat "default.nix"], rfl, by simp⟩
  · rw [getTargetPath_blocked_default h]; exact ⟨rfl, rfl, [.stat "default.nix"], rfl, by simp⟩
  · rw [getTargetPath_shell h0 h]
    exact ⟨rfl, rfl, [.stat "default.nix", .stat "shell.nix"], by simp [World.emit], by simp⟩
  · rw [getTargetPath_blocked_shell h0 h]
    exact ⟨rfl, rfl, [.stat "default.nix", .stat "shell.nix"], by simp [World.emit], by simp⟩
  · rw [getTargetPath_absent h0 h]
    exact ⟨rfl, rfl, [.stat "default.nix", .stat "shell.nix"], by simp [World.emit], by simp⟩

/-- Claim C7: `getTargetPath` returns the not-found error with an empty path
exactly when both `default.nix` and `shell.nix` do not exist; it returns the
error `Can not open <file>` when the check of `default.nix` fails otherwise,
or when `default.nix` does not exist and the check of `shell.nix` fails
otherwise; and whenever it returns an error, a run of `detect` or `bump`
(with any further arguments) exits with code 1 after nothing but `os.Stat`
calls on the two names and the fatal message: the file system is unchanged, no
file is read or written and no HTTP request is made. -/
theorem getTargetPath_failure_is_fatal (uni : Nat → Bool) (build : Build) (w : World) :
    ((getTargetPath w).1 = ("", some (.notFound ["default.nix", "shell.nix"])) ↔
        (w.fs "default.nix" = .absent ∧ w.fs "shell.nix" = .absent)) ∧
    (∀ m, w.fs "default.nix" = .blocked m →
        (getTargetPath w).1 = ("", some (.canNotOpen "default.nix" (.other m)))) ∧
    (∀ m, w.fs "default.nix" = .absent → w.fs "shell.nix" = .blocked m →
        (getTargetPath w).1 = ("", some (.canNotOpen "shell.nix" (.other m)))) ∧
    (∀ sub rest err, sub = "detect" ∨ sub = "bump" → (getTargetPath w).1.2 = some err →
        (main uni build (sub :: rest) w).1 = .code 1 ∧
        (main uni build (sub :: rest) w).2.fs = w.fs ∧
        ∃ evs, (main uni build (sub :: rest) w).2.trace =
            w.trace ++ evs ++ [.logFatal (utf8 ("Failed to get target files: " ++ err.text))] ∧
          ∀ ev ∈ evs, ev = .stat "default.nix" ∨ ev = .stat "shell.nix") := by
  refine ⟨?_, fun m h => by rw [getTargetPath_blocked_default h],
    fun m h0 h => by rw [getTargetPath_blocked_shell h0 h], ?_⟩
  · constructor
    · intro hnf
      rcases getTargetPath_cases w with ⟨c, r, wr, h⟩ | ⟨m, h⟩ | ⟨h0, ⟨c, r, wr, h⟩ | ⟨m, h⟩ | h⟩
      · rw [getTargetPath_default h] at hnf; simp at hnf
      · rw [getTargetPath_blocked_default h] at hnf; simp at hnf
      · rw [getTargetPath_shell h0 h] at hnf; simp at hnf
      · rw [getTargetPath_blocked_shell h0 h] at hnf; simp at hnf
      · exact ⟨h0, h⟩
    · rintro ⟨h0, h⟩
      rw [getTargetPath_absent h0 h]; rfl
  · intro sub rest err hsub herr
    obtain ⟨hfs, _, evs, htr, hevs⟩ := getTargetPath_world w
    have hp : parseFlags ["version"] (sub :: rest) [] = .done [] := by
      rcases hsub with rfl | rfl
      · exact parseFlags_detect _ _
      · exact parseFlags_bump _ _
    have hm : main uni build (sub :: rest) w =
        fatal (getTargetPath w).2 (utf8 ("Failed to get target files: " ++ err.text)) := by
      simp only [main, hp, flagValue, List.find?]
      rcases hg : getTargetPath w with ⟨⟨p, e⟩, w1⟩
      rw [hg] at herr
      simp only at herr
      subst herr
      simp
    rw [hm]
    refine ⟨rfl, hfs, evs, ?_, hevs⟩
    simp [fatal, World.emit, htr]

/-- Witness of claim C7: in a directory without the two files the locator
reports not-found and `bump` exits with code 1, the file system unchanged. -/
theorem getTargetPath_failure_is_fatal_witness :
    (getTargetPath emptyDir).1 = ("", some (.notFound ["default.nix", "shell.nix"])) ∧
    (main noUnicode defaultBuild ["bump"] emptyDir).1 = .code 1 ∧
    (main noUnicode defaultBuild ["bump"] emptyDir).2.fs = emptyDir.fs :=
  ⟨(getTargetPath_failure_is_fatal noUnicode defaultBuild emptyDir).1.2 ⟨rfl, rfl⟩,
   ((getTargetPath_failure_is_fatal noUnicode defaultBuild emptyDir).2.2.2 "bump" []
      (.notFound ["default.nix", "shell.nix"]) (Or.inr rfl) rfl).1,
   ((getTargetPath_failure_is_fatal noUnicode defaultBuild emptyDir).2.2.2 "bump" []
      (.notFound ["default.nix", "shell.nix"]) (Or.inr rfl) rfl).2.1⟩

/-! ### Claim C8 -/

/-- Claim C8, evaluated on the code: with the default build variables the
variable `commit` is `none`, four bytes long, and a run with the flag
`-version` does not print the banner: the slice `commit[:7]` is out of range
and `main` ends in a run-time panic, whatever the world. With a commit of
seven bytes or more (here sixteen) the banner is printed and the run exits
with code 0. -/
theorem version_flag_panics_on_default_build (uni : Nat → Bool) (w : World) :
    defaultBuild.commit.length = 4 ∧
    main uni defaultBuild ["-version"] w = (.panic "slice bounds out of range [:7]", w) ∧
    main uni releaseBuild ["-version"] w =
      (.code 0, { w with trace := w.trace ++
        [.stdout (utf8 "nix-headbump 1.2.3 (0123456) # 2024-01-01\n")] }) :=
  ⟨by decide, rfl, rfl⟩

/-! ### Claim C9 -/

/-- Claim C9, evaluated on the code: for a readable `default.nix` whose
content holds no match of `re`, the index `matches[2]` fails: the last two
lines of `getCurrentVersion` panic, and so does the run `detect -current`
after reading the file; no empty string is returned. On the documented line
pinning `abc123` the same run prints `abc123` and exits with code 0. -/
theorem getCurrentVersion_panics_without_pattern (uni : Nat → Bool) (build : Build) :
    currentVersion unpinnedFile = .panic "index out of range [2] with length 0" ∧
    main uni build ["detect", "-current"] (scenario "default.nix" unpinnedFile headDef456) =
      (.panic "index out of range [2] with length 0",
        { scenario "default.nix" unpinnedFile headDef456 with
          trace := [.stat "default.nix", .readFile "default.nix"] }) ∧
    main uni build ["detect", "-current"]
        (scenario "default.nix" (pinnedLine "abc123") headDef456) =
      (.code 0, { scenario "default.nix" (pinnedLine "abc123") headDef456 with
        trace := [.stat "default.nix", .readFile "default.nix", .stdout (utf8 "abc123\n")] }) :=
  ⟨by decide, rfl, rfl⟩

/-! ### Claim C10 -/

theorem doExecute_ne_none_of_matchAt {pre rest : Bytes} {s : Nat} {caps : Caps}
    (h : matchAt rest s = some caps) : doExecute (pre ++ rest) 0 ≠ none := by
  intro hnone
  simp only [doExecute, List.drop_zero] at hnone
  have := findFrom_none hnone pre rest rfl
  rw [matchAt_none_start this s] at h
  cases h

theorem noMatchBefore_drop {pre rest : Bytes} (h : NoMatchBefore pre rest) (k : Nat)
    (hk : k < pre.length) : matchAt ((pre ++ rest).drop k) k = none := by
  have e : pre = pre.take k ++ pre.drop k := (List.take_append_drop k pre).symm
  have hne : pre.drop k ≠ [] := by
    intro hnil
    have := congrArg List.length hnil
    rw [List.length_drop] at this
    simp at this; omega
  have := h (pre.take k) (pre.drop k) e hne
  rw [List.drop_append_of_le_length (by omega)]
  exact matchAt_none_start this k

theorem span_unique {v v' post post' : Bytes} (hq : 34 ∉ v) (hq' : 34 ∉ v')
    (h : v ++ tarSuffix ++ post = v' ++ tarSuffix ++ post') : v' = v := by
  have hsuf : tarSuffix = utf8 ".tar.gz" ++ [34, 41] := by decide
  have q3 : 34 ∉ utf8 ".tar.gz" := by decide
  have h' : (v ++ utf8 ".tar.gz") ++ 34 :: (41 :: post) =
      (v' ++ utf8 ".tar.gz") ++ 34 :: (41 :: post') := by
    rw [hsuf] at h; simpa using h
  have := (split_unique h' (by simp [hq, q3]) (by simp [hq', q3])).1
  exact (List.append_cancel_right this).symm

/-- Claim C10 fails as stated: a content with a newline, a tab and two
spaces around `(fetchTarball` has a match without containing the literal
prefix; the literal prefix followed by an empty span, or by the span `a"b`,
and the suffix has no match; and where the first occurrence of the prefix is
followed by a double quote the captured span is that of a later occurrence,
not the shortest span after the first. -/
theorem re_is_not_the_literal_format :
    (doExecute (utf8 "import\n\t(fetchTarball  \"https://github.com/NixOS/nixpkgs/archive/abc.tar.gz\")") 0
        ≠ none ∧
      ¬ documentedPrefix <:+:
        utf8 "import\n\t(fetchTarball  \"https://github.com/NixOS/nixpkgs/archive/abc.tar.gz\")") ∧
    (documentedPrefix ++ [] ++ tarSuffix = pinnedLine "" ∧ doExecute (pinnedLine "") 0 = none) ∧
    (documentedPrefix ++ utf8 "a\"b" ++ tarSuffix = pinnedLine "a\"b" ∧
      doExecute (pinnedLine "a\"b") 0 = none) ∧
    (documentedPrefix ++ (utf8 "\"; x = " ++ documentedPrefix ++ utf8 "abc") ++ tarSuffix =
        documentedPrefix ++ utf8 "\"; x = " ++ pinnedLine "abc" ∧
      currentVersion (documentedPrefix ++ utf8 "\"; x = " ++ pinnedLine "abc") =
        .ret (utf8 "abc")) := by
  refine ⟨⟨by decide, by decide⟩, ⟨by decide, by decide⟩, ⟨by decide, by decide⟩,
    ⟨by decide, by decide⟩⟩

/-- Claim C10 as amended: a content has a match of `re` if it contains
`import`, white space, `(fetchTarball`, white space, the literal
`"https://github.com/NixOS/nixpkgs/archive/`, a non-empty span without a
double quote and `.tar.gz")`; and whenever it has a match, the content is
`pre ++ g1 ++ v ++ .tar.gz") ++ post` where `g1` has that form (one rune
standing at the dot of the host name), the captured span `v` is non-empty and
free of double quotes, `FindStringSubmatch` returns the whole match, `g1`,
`v` and the suffix, no text of that form starts at an earlier offset, and `v`
is the only non-empty span without a double quote that the suffix follows
there. -/
theorem re_matches_spaced_format (content : Bytes) :
    (∀ pre ws1 ws2 v post, IsSpaces ws1 → IsSpaces ws2 → v ≠ [] → 34 ∉ v →
        content = pre ++ kwImport ++ ws1 ++ kwFetch ++ ws2 ++ urlHead ++ [46] ++ urlTail ++ v ++
          tarSuffix ++ post →
        doExecute content 0 ≠ none) ∧
    (∀ caps, doExecute content 0 = some caps →
      ∃ pre g1 v post, content = pre ++ g1 ++ v ++ tarSuffix ++ post ∧ IsPrefixText g1 ∧
        v ≠ [] ∧ 34 ∉ v ∧
        findStringSubmatch content = some [g1 ++ v ++ tarSuffix, g1, v, tarSuffix] ∧
        (∀ pre1 g v1 post1, IsPrefixText g → v1 ≠ [] → 34 ∉ v1 →
          content = pre1 ++ g ++ v1 ++ tarSuffix ++ post1 → pre.length ≤ pre1.length) ∧
        (∀ v1 post1, v1 ≠ [] → 34 ∉ v1 → v ++ tarSuffix ++ post = v1 ++ tarSuffix ++ post1 →
          v1 = v)) := by
  constructor
  · intro pre ws1 ws2 v post h1 h2 hv hq e
    have hg : IsPrefixText (kwImport ++ ws1 ++ kwFetch ++ ws2 ++ urlHead ++ [46] ++ urlTail) :=
      ⟨ws1, ws2, [46], h1, h2, ⟨by simp, by decide⟩, rfl⟩
    have hm := matchAt_append hg hv hq post 0
    have e1 : content = pre ++ ((kwImport ++ ws1 ++ kwFetch ++ ws2 ++ urlHead ++ [46] ++ urlTail)
        ++ v ++ tarSuffix ++ post) := by rw [e]; simp
    rw [e1]
    exact doExecute_ne_none_of_matchAt hm
  · intro caps h
    obtain ⟨pre, g1, v, post, rfl, hg, hv, hq, hno, rfl⟩ := doExecute_zero_some h
    refine ⟨pre, g1, v, post, rfl, hg, hv, hq, findStringSubmatch_shape hg hv hq hno, ?_, ?_⟩
    · intro pre1 g v1 post1 hg1 hv1 hq1 e
      by_contra hlt
      have hk : pre1.length < pre.length := by omega
      have h0 := noMatchBefore_drop hno pre1.length hk
      have e2 : pre ++ (g1 ++ v ++ tarSuffix ++ post) = pre1 ++ (g ++ v1 ++ tarSuffix ++ post1) := by
        simpa using e
      rw [e2, List.drop_left] at h0
      rw [matchAt_append hg1 hv1 hq1] at h0
      cases h0
    · intro v1 post1 _ hq1 e
      exact span_unique hq hq1 e

/-- Witness of claim C10: the documented line pinning `abc123`. -/
theorem re_matches_spaced_format_witness :
    doExecute (pinnedLine "abc123") 0 ≠ none ∧
      ∃ pre g1 v post, pinnedLine "abc123" = pre ++ g1 ++ v ++ tarSuffix ++ post ∧
        IsPrefixText g1 ∧ v ≠ [] ∧ 34 ∉ v ∧
        findStringSubmatch (pinnedLine "abc123") = some [g1 ++ v ++ tarSuffix, g1, v, tarSuffix] ∧
        (∀ pre1 g v1 post1, IsPrefixText g → v1 ≠ [] → 34 ∉ v1 →
          pinnedLine "abc123" = pre1 ++ g ++ v1 ++ tarSuffix ++ post1 →
            pre.length ≤ pre1.length) ∧
        (∀ v1 post1, v1 ≠ [] → 34 ∉ v1 → v ++ tarSuffix ++ post = v1 ++ tarSuffix ++ post1 →
          v1 = v) :=
  ⟨(re_matches_spaced_format (pinnedLine "abc123")).1 [] [32] [32] (utf8 "abc123") []
      ⟨by decide, by decide⟩ ⟨by decide, by decide⟩ (by decide) (by decide) (by decide),
   (re_matches_spaced_format (pinnedLine "abc123")).2 (capsOf 0 63 6) (by decide)⟩

end NixHeadbump
